import Mathlib

/-!
# Minimum Kubernetes version gate (`knative.dev/pkg/version`)

A shallow embedding of `vendor/knative.dev/pkg/version/version.go`:
`getMinimumVersion` and `CheckMinimumVersion`, together with the parts of the
libraries they call (`semver`, `version.Info`, `os.Getenv`, `fmt.Errorf`).

Go strings are embedded as Lean strings; the byte loops of the libraries work
on the list of characters of a string.
-/

set_option maxRecDepth 100000

/-! ## `semver`: comparison of semantic version strings -/

namespace semver

/-- Modelled from the spec: the digit test `'0' <= c && c <= '9'` that the absent
`semver` package writes inline (code points 48 to 57). -/
def isDigit (c : Char) : Bool :=
  decide (48 ≤ c.toNat) && decide (c.toNat ≤ 57)

/-- Modelled from the spec: `isIdentChar` of the absent `semver` package: ASCII
letters, digits and the hyphen. -/
def isIdentChar (c : Char) : Bool :=
  (decide (65 ≤ c.toNat) && decide (c.toNat ≤ 90)) ||
  (decide (97 ≤ c.toNat) && decide (c.toNat ≤ 122)) ||
  isDigit c || decide (c.toNat = 45)

/-- Modelled from the spec: Go's `x < y` on strings, which the absent `semver`
package uses: lexicographic comparison of the code units. -/
def stringLess : List Char → List Char → Bool
  | _, [] => false
  | [], _ :: _ => true
  | a :: x, b :: y =>
    if a.toNat < b.toNat then true
    else if b.toNat < a.toNat then false
    else stringLess x y

/-- Modelled from the spec: the parsed form of a semantic version string of the
vendored package `github.com/rogpeppe/go-internal/semver`, which is not among
the sources. A version has the form `vMAJOR[.MINOR[.PATCH[-PRERELEASE][+BUILD]]]`;
`short` is the text that completes a shorthand `vMAJOR` or `vMAJOR.MINOR`;
`prerelease` and `build` keep their leading `-` and `+`. -/
structure parsed where
  major : List Char
  minor : List Char
  patch : List Char
  short : List Char
  prerelease : List Char
  build : List Char
deriving DecidableEq, Repr

/-- Modelled from the spec: `parseInt` of the absent `semver` package. Reads a
decimal integer without extra leading zeros from the front of `v` and returns
it with the rest of the input. -/
def parseInt (v : List Char) : Option (List Char × List Char) :=
  match v with
  | [] => none
  | c :: cs =>
    if !isDigit c then none
    else
      let t := c :: cs.takeWhile isDigit
      if c.toNat = 48 ∧ t.length ≠ 1 then none
      else some (t, cs.dropWhile isDigit)

/-- Modelled from the spec: the dot separated fields of a text (always at least
one field), which the loops of the absent `semver` package walk through with
`nextIdent`. -/
def splitDots : List Char → List (List Char)
  | [] => [[]]
  | c :: cs =>
    if c.toNat = 46 then [] :: splitDots cs
    else
      match splitDots cs with
      | [] => [[c]]
      | d :: ds => (c :: d) :: ds

/-- Modelled from the spec: `isNum` of the absent `semver` package: the
identifier consists of digits only. -/
def isNum (v : List Char) : Bool := v.all isDigit

/-- Modelled from the spec: `isBadNum` of the absent `semver` package: an
all-digit identifier with a leading zero. -/
def isBadNum (v : List Char) : Bool :=
  v.all isDigit && decide (1 < v.length) && decide (v.head? = some (Char.ofNat 48))

/-- Modelled from the spec: the test `parsePrerelease` of the absent `semver`
package makes of each identifier: not empty, no numeric identifier with a
leading zero. -/
def goodPrereleaseIdent (d : List Char) : Bool := !d.isEmpty && !isBadNum d

/-- Modelled from the spec: `parsePrerelease` of the absent `semver` package.
The input starts with `-`; the pre-release runs to the first `+` or to the end,
holds only identifier characters and dots, and each of its dot separated
identifiers is well formed. -/
def parsePrerelease (v : List Char) : Option (List Char × List Char) :=
  match v with
  | [] => none
  | c :: cs =>
    if c.toNat ≠ 45 then none
    else
      let body := cs.takeWhile (fun d => decide (d.toNat ≠ 43))
      if body.all (fun d => isIdentChar d || decide (d.toNat = 46))
          && (splitDots body).all goodPrereleaseIdent then
        some (c :: body, cs.dropWhile (fun d => decide (d.toNat ≠ 43)))
      else none

/-- Modelled from the spec: `parseBuild` of the absent `semver` package. The
input starts with `+`; the build metadata runs to the end, holds only
identifier characters and dots, and none of its identifiers is empty. -/
def parseBuild (v : List Char) : Option (List Char × List Char) :=
  match v with
  | [] => none
  | c :: cs =>
    if c.toNat ≠ 43 then none
    else if cs.all (fun d => isIdentChar d || decide (d.toNat = 46))
          && (splitDots cs).all (fun d => !d.isEmpty) then
      some (c :: cs, [])
    else none

/-- Modelled from the spec: the end of `parse` of the absent `semver` package:
the optional pre-release and build metadata after the patch number; the whole
rest of the input has to be consumed. -/
def parseTail (v : List Char) : Option (List Char × List Char) :=
  match (if v.head? = some (Char.ofNat 45) then parsePrerelease v else some ([], v)) with
  | none => none
  | some (prerelease, v1) =>
    match (if v1.head? = some (Char.ofNat 43) then parseBuild v1 else some ([], v1)) with
    | none => none
    | some (build, v2) => if v2 = [] then some (prerelease, build) else none

/-- Modelled from the spec: `parse` of the absent `semver` package; `none`
stands for `ok = false`. -/
def parse (v : List Char) : Option parsed :=
  match v with
  | [] => none
  | c :: v1 =>
    if c.toNat ≠ 118 then none
    else
      match parseInt v1 with
      | none => none
      | some (major, []) =>
        some ⟨major, [Char.ofNat 48], [Char.ofNat 48], ".0.0".data, [], []⟩
      | some (major, d :: v2) =>
        if d.toNat ≠ 46 then none
        else
          match parseInt v2 with
          | none => none
          | some (minor, []) => some ⟨major, minor, [Char.ofNat 48], ".0".data, [], []⟩
          | some (minor, e :: v3) =>
            if e.toNat ≠ 46 then none
            else
              match parseInt v3 with
              | none => none
              | some (patch, v4) =>
                match parseTail v4 with
                | none => none
                | some (prerelease, build) => some ⟨major, minor, patch, [], prerelease, build⟩

/-- Modelled from the spec: `semver.IsValid` of the absent package. -/
def IsValid (v : String) : Bool := (parse v.data).isSome

/-- Modelled from the spec: `semver.Canonical` of the absent package: fills in
a missing `.MINOR` or `.PATCH` and discards build metadata; the canonical form
of an invalid version is the empty string. -/
def Canonical (v : String) : String :=
  match parse v.data with
  | none => ""
  | some p =>
    if p.build ≠ [] then String.mk (v.data.take (v.data.length - p.build.length))
    else if p.short ≠ [] then String.mk (v.data ++ p.short)
    else v

/-- Modelled from the spec: `compareInt` of the absent `semver` package:
numeric comparison of two decimal integers without leading zeros, by length
first and then as strings. -/
def compareInt (x y : List Char) : Int :=
  if x = y then 0
  else if x.length < y.length then -1
  else if x.length > y.length then 1
  else if stringLess x y then -1
  else 1

/-- Modelled from the spec: the comparison `comparePrerelease` of the absent
`semver` package makes of two different identifiers: numeric identifiers are
below the others; two numeric ones compare as numbers, two others as strings. -/
def compareIdent (dx dy : List Char) : Int :=
  if isNum dx ≠ isNum dy then (if isNum dx then -1 else 1)
  else if isNum dx && decide (dx.length < dy.length) then -1
  else if isNum dx && decide (dx.length > dy.length) then 1
  else if stringLess dx dy then -1
  else 1

/-- Modelled from the spec: the loop of `comparePrerelease` of the absent
`semver` package over the identifiers of the two pre-releases: the first pair
that differs decides, and a pre-release that runs out first is the lower one. -/
def compareIdents : List (List Char) → List (List Char) → Int
  | [], _ => -1
  | _ :: _, [] => 1
  | dx :: xs, dy :: ys =>
    if dx ≠ dy then compareIdent dx dy else compareIdents xs ys

/-- Modelled from the spec: `comparePrerelease` of the absent `semver`
package: a version without pre-release is above one with a pre-release;
otherwise the dot separated identifiers are compared from left to right. -/
def comparePrerelease (x y : List Char) : Int :=
  if x = y then 0
  else if x = [] then 1
  else if y = [] then -1
  else compareIdents (splitDots x.tail) (splitDots y.tail)

/-- Modelled from the spec: `semver.Compare` of the absent package: `-1`, `0`
or `1` by semantic version precedence. An invalid version is below every valid
one and all invalid versions compare equal. -/
def Compare (v w : String) : Int :=
  match parse v.data, parse w.data with
  | none, none => 0
  | none, some _ => -1
  | some _, none => 1
  | some pv, some pw =>
    if compareInt pv.major pw.major ≠ 0 then compareInt pv.major pw.major
    else if compareInt pv.minor pw.minor ≠ 0 then compareInt pv.minor pw.minor
    else if compareInt pv.patch pw.patch ≠ 0 then compareInt pv.patch pw.patch
    else comparePrerelease pv.prerelease pw.prerelease

/-! ### Devices of the proofs -/

/-- The text whose dot separated fields are the given ones. -/
def joinDots : List (List Char) → List Char
  | [] => []
  | [d] => d
  | d :: e :: ds => d ++ Char.ofNat 46 :: joinDots (e :: ds)

/-- One step of a lexicographic comparison. -/
def lexStep (c rest : Int) : Int := if c ≠ 0 then c else rest

/-- The comparison of two parsed versions, as `Compare` makes it. -/
def compareParsed (pv pw : parsed) : Int :=
  lexStep (compareInt pv.major pw.major)
    (lexStep (compareInt pv.minor pw.minor)
      (lexStep (compareInt pv.patch pw.patch)
        (comparePrerelease pv.prerelease pw.prerelease)))

/-- A pre-release as `parse` leaves it: empty, or with its leading hyphen. -/
def wfPrerelease (x : List Char) : Prop := x = [] ∨ x.head? = some (Char.ofNat 45)

/-- A comparison with results `-1`, `0`, `1` that is a strict total order on
the values that satisfy `D`. -/
structure StrictCmp {α : Type} (D : α → Prop) (f : α → α → Int) : Prop where
  cases : ∀ a b, f a b = 0 ∨ f a b = -1 ∨ f a b = 1
  zero_iff : ∀ a b, D a → D b → (f a b = 0 ↔ a = b)
  anti : ∀ a b, D a → D b → f a b = - f b a
  trans : ∀ a b c, D a → D b → D c → f a b = -1 → f b c = -1 → f a c = -1

/-- The fields of a parsed version that `Compare` looks at. -/
def parsed.key (p : parsed) : List Char × List Char × List Char × List Char :=
  (p.major, p.minor, p.patch, p.prerelease)

/-- A decimal integer without extra leading zeros. -/
def isNumeral (t : List Char) : Prop :=
  t ≠ [] ∧ t.all isDigit = true ∧ (t.head? = some (Char.ofNat 48) → t.length = 1)

/-- The characters a version string may hold. -/
def isVersionChar (c : Char) : Bool :=
  isIdentChar c || decide (c.toNat = 46) || decide (c.toNat = 43)

/-- The canonical text of a parsed version. -/
def parsed.canonical (p : parsed) : List Char :=
  Char.ofNat 118 :: p.major ++ Char.ofNat 46 :: p.minor ++ Char.ofNat 46 :: p.patch ++ p.prerelease

/-- A parsed version as `parse` returns it. -/
structure parsed.WF (p : parsed) : Prop where
  major : isNumeral p.major
  minor : isNumeral p.minor
  patch : isNumeral p.patch
  prerelease : wfPrerelease p.prerelease
  prereleaseChars : p.prerelease.all isVersionChar = true
  buildChars : p.build.all isVersionChar = true
  short : p.short ≠ [] → p.build = []
  prereleaseOK : p.prerelease = [] ∨ parsePrerelease p.prerelease = some (p.prerelease, [])
  buildOK : p.build = [] ∨ parseBuild p.build = some (p.build, [])

/-- The number a decimal digit stands for. -/
def digitValue (c : Char) : Nat := c.toNat - 48

/-- The number a decimal numeral stands for. -/
def decimalValue : List Char → Nat
  | [] => 0
  | c :: cs => digitValue c * 10 ^ cs.length + decimalValue cs

/-- Comparison of two natural numbers, as `-1`, `0` or `1`. -/
def compareNat (a b : Nat) : Int := if a < b then -1 else if b < a then 1 else 0

/-- A text that does not go on with a digit. -/
def noDigitAhead (rest : List Char) : Prop := ∀ c, rest.head? = some c → isDigit c = false

/-- A text that is empty or starts the build metadata. -/
def buildAhead (s : List Char) : Prop := s = [] ∨ s.head? = some (Char.ofNat 43)

end semver

/-! ## `strconv.Quote` and `fmt` -/

namespace strconv

/-- Modelled from the spec: printable ASCII other than the double quote and the
backslash, the characters Go's `strconv.Quote` copies unchanged. -/
def isPlain (c : Char) : Bool :=
  decide (32 ≤ c.toNat) && decide (c.toNat < 127) && decide (c.toNat ≠ 34) && decide (c.toNat ≠ 92)

/-- Modelled from the spec: Go's `strconv.Quote`, the rendering of the `%q`
verb. The double quote and the backslash get a backslash in front, other
printable ASCII is copied, and the escape of every other rune, which depends
on the Unicode tables of the Go release, is the parameter `esc`. -/
def Quote (esc : Char → List Char) (s : String) : List Char :=
  Char.ofNat 34 ::
    (s.data.flatMap (fun c =>
      if c.toNat = 34 ∨ c.toNat = 92 then [Char.ofNat 92, c]
      else if isPlain c then [c]
      else esc c)) ++ [Char.ofNat 34]

end strconv

namespace fmt

/-- Modelled from the spec: Go's `fmt.Sprintf` for formats whose only verbs
are `%q` with string operands (the one use the package makes of it): each
`%q` is replaced by the quoted next operand. -/
def sprintf (esc : Char → List Char) : List Char → List String → List Char
  | [], _ => []
  | [c], _ => if c.toNat = 37 then "%!(NOVERB)".data else [c]
  | c :: d :: rest, a =>
    if c.toNat = 37 ∧ d.toNat = 113 then
      match a with
      | [] => "%!q(MISSING)".data ++ sprintf esc rest []
      | s :: a1 => strconv.Quote esc s ++ sprintf esc rest a1
    else c :: sprintf esc (d :: rest) a

/-- Modelled from the spec: Go's `fmt.Sprintf`, the formatted text as a string. -/
def Sprintf (esc : Char → List Char) (format : String) (a : List String) : String :=
  String.mk (sprintf esc format.data a)

end fmt

/-! ## The version gate -/

/-- Modelled from the spec: `version.Info` of `k8s.io/apimachinery`, the
version descriptor a cluster reports. -/
structure Info where
  Major : String
  Minor : String
  GitVersion : String
  GitCommit : String
  GitTreeState : String
  BuildDate : String
  GoVersion : String
  Compiler : String
  Platform : String
deriving DecidableEq, Repr

/-- Modelled from the spec: `version.Info.String`, the string form of the
descriptor, which is its `GitVersion`. -/
def Info.String (info : Info) : String := info.GitVersion

/-- Go's `error` values: an error made elsewhere, or the one `fmt.Errorf`
makes from a format and its operands, whose message is the formatted text. -/
inductive error (ε : Type) where
  | foreign (e : ε)
  | Errorf (format : String) (a : List String)
deriving DecidableEq, Repr

/-- The message of an error: `msg` for the errors made elsewhere, the
formatted text for those of `fmt.Errorf`. -/
def error.Error {ε : Type} (esc : Char → List Char) (msg : ε → String) : error ε → String
  | .foreign e => msg e
  | .Errorf format a => fmt.Sprintf esc format a

/-- The state a call can read or change: the environment of the process and
the state `σ` of everything behind the versioner. -/
structure World (σ : Type) where
  environ : String → Option String
  remote : σ

/-- The interface `ServerVersioner`: the one method `ServerVersion`, which returns a
descriptor (or nil) and an error (or nil), and may change the world. -/
structure ServerVersioner (σ ε : Type) where
  ServerVersion : World σ → (Option Info × Option (error ε)) × World σ

/-- Modelled from the spec: Go's `os.Getenv`: the value of the variable, empty
when it is unset. -/
def os.Getenv {σ : Type} (w : World σ) (key : String) : String :=
  (w.environ key).getD ""

/-- The environment variable that overrides the minimum version. -/
def KubernetesMinVersionKey : String := "KUBERNETES_MIN_VERSION"

/-- The compiled-in minimum version. -/
def defaultMinimumVersion : String := "v1.15.0"

/-- The function `getMinimumVersion`: the override when it is not empty, else the
default. -/
def getMinimumVersion {σ : Type} (w : World σ) : String :=
  let v := os.Getenv w KubernetesMinVersionKey
  if v ≠ "" then v else defaultMinimumVersion

/-- What a call of `CheckMinimumVersion` does: it returns an error or nil, or
it panics (on the nil descriptor that came without an error). -/
inductive Outcome (ε : Type) where
  | returned (err : Option (error ε))
  | panicked
deriving DecidableEq, Repr

/-- The format of the version-too-low error. -/
def tooLowFormat : String :=
  "kubernetes version %q is not compatible, need at least %q (this can be overridden with the env var %q)"

/-- The function `CheckMinimumVersion`: the outcome of the call and the world after
it. A failed retrieval returns its error; a nil descriptor without an error
panics when its string form is taken; otherwise the canonical form of the
retrieved version is compared with the minimum. -/
def CheckMinimumVersion {σ ε : Type} (versioner : ServerVersioner σ ε) (w : World σ) :
    Outcome ε × World σ :=
  let r := versioner.ServerVersion w
  match r.1.2 with
  | some err => (.returned (some err), r.2)
  | none =>
    match r.1.1 with
    | none => (.panicked, r.2)
    | some v =>
      let currentVersion := semver.Canonical v.String
      let minimumVersion := getMinimumVersion r.2
      if semver.Compare minimumVersion currentVersion = 1 then
        (.returned (some (error.Errorf tooLowFormat
          [currentVersion, minimumVersion, KubernetesMinVersionKey])), r.2)
      else (.returned none, r.2)

/-! ## The specification's wording -/

/-- The minimum as the specification words it: the override, verbatim, when
it is set and not empty, and `v1.15.0` otherwise. -/
def specMinimum (override : Option String) : String :=
  match override with
  | some o => if o = "" then "v1.15.0" else o
  | none => "v1.15.0"

/-- The text of the version-too-low error for a current and a minimum version
that need no escaping. -/
def tooLowText (current minimum : String) : String :=
  "kubernetes version \"" ++ current ++ "\" is not compatible, need at least \"" ++ minimum ++
    "\" (this can be overridden with the env var \"KUBERNETES_MIN_VERSION\")"

/-- The version-too-low error of `CheckMinimumVersion`. -/
def tooLowError (ε : Type) (current minimum : String) : error ε :=
  error.Errorf tooLowFormat [current, minimum, KubernetesMinVersionKey]

/-! ## Test fixtures -/

/-- A descriptor with the given `GitVersion`. -/
def infoOf (gitVersion : String) : Info :=
  ⟨"1", "", gitVersion, "", "", "", "", "", ""⟩

/-- A versioner that reports the given version and changes nothing. -/
def fixedVersioner (gitVersion : String) : ServerVersioner Unit String :=
  ⟨fun w => ((some (infoOf gitVersion), none), w)⟩

/-- A versioner that fails with the given error and changes nothing. -/
def failingVersioner (e : String) : ServerVersioner Unit String :=
  ⟨fun w => ((none, some (error.foreign e)), w)⟩

/-- A versioner that counts its calls in the remote state. -/
def countingVersioner (gitVersion : String) : ServerVersioner Nat String :=
  ⟨fun w => ((some (infoOf gitVersion), none), ⟨w.environ, w.remote + 1⟩)⟩

/-- A world whose environment has only the override variable, when given. -/
def worldWith (override : Option String) : World Unit :=
  ⟨fun k => if k = KubernetesMinVersionKey then override else none, ()⟩

/-! ## Properties of the comparison -/

namespace semver

theorem char_eq_of_toNat_eq {a b : Char} (h : a.toNat = b.toNat) : a = b := by
  rw [← Char.ofNat_toNat a, ← Char.ofNat_toNat b, h]

theorem stringLess_irrefl (x : List Char) : stringLess x x = false := by
  induction x with
  | nil => rfl
  | cons a x ih => simp [stringLess, ih]

theorem stringLess_asymm : ∀ (x y : List Char), stringLess x y = true → stringLess y x = false
  | _, [], h => by simp [stringLess] at h
  | [], _ :: _, _ => by simp [stringLess]
  | a :: x, b :: y, h => by
    simp only [stringLess] at h ⊢
    by_cases h1 : a.toNat < b.toNat
    · have h2 : ¬ b.toNat < a.toNat := by omega
      simp [h2, h1]
    · by_cases h2 : b.toNat < a.toNat
      · simp [h1, h2] at h
      · simp only [h1, h2, if_false] at h ⊢
        exact stringLess_asymm x y h

theorem stringLess_total : ∀ (x y : List Char), x ≠ y → stringLess x y = true ∨ stringLess y x = true
  | [], [], h => absurd rfl h
  | [], _ :: _, _ => by simp [stringLess]
  | _ :: _, [], _ => by simp [stringLess]
  | a :: x, b :: y, h => by
    simp only [stringLess]
    by_cases h1 : a.toNat < b.toNat
    · simp [h1]
    · by_cases h2 : b.toNat < a.toNat
      · simp [h2]
      · have hab : a = b := char_eq_of_toNat_eq (by omega)
        subst hab
        simp only [h1, if_false]
        exact stringLess_total x y (fun hxy => h (by rw [hxy]))

theorem stringLess_trans : ∀ (x y z : List Char),
    stringLess x y = true → stringLess y z = true → stringLess x z = true
  | _, [], _, h, _ => by simp [stringLess] at h
  | _, _ :: _, [], _, h => by simp [stringLess] at h
  | [], _ :: _, _ :: _, _, _ => by simp [stringLess]
  | a :: x, b :: y, c :: z, h1, h2 => by
    simp only [stringLess] at h1 h2 ⊢
    by_cases hab : a.toNat < b.toNat
    · by_cases hbc : b.toNat < c.toNat
      · have : a.toNat < c.toNat := by omega
        simp [this]
      · by_cases hcb : c.toNat < b.toNat
        · simp [hbc, hcb] at h2
        · have : a.toNat < c.toNat := by omega
          simp [this]
    · by_cases hba : b.toNat < a.toNat
      · simp [hab, hba] at h1
      · simp only [hab, hba, if_false] at h1
        by_cases hbc : b.toNat < c.toNat
        · have : a.toNat < c.toNat := by omega
          simp [this]
        · by_cases hcb : c.toNat < b.toNat
          · simp [hbc, hcb] at h2
          · simp only [hbc, hcb, if_false] at h2
            have e1 : ¬ a.toNat < c.toNat := by omega
            have e2 : ¬ c.toNat < a.toNat := by omega
            simp only [e1, e2, if_false]
            exact stringLess_trans x y z h1 h2

/-- The values of `compareInt`. -/
theorem compareInt_cases (x y : List Char) :
    (compareInt x y = 0 ∧ x = y) ∨ (compareInt x y = -1 ∧ x ≠ y) ∨ (compareInt x y = 1 ∧ x ≠ y) := by
  unfold compareInt
  by_cases h : x = y
  · simp [h]
  · simp only [h, if_false]
    split_ifs <;> simp [h]

theorem compareInt_eq_zero {x y : List Char} : compareInt x y = 0 ↔ x = y := by
  rcases compareInt_cases x y with h | h | h
  · exact ⟨fun _ => h.2, fun _ => h.1⟩
  · simp [h.1, h.2]
  · simp [h.1, h.2]

theorem compareInt_self (x : List Char) : compareInt x x = 0 := compareInt_eq_zero.2 rfl

theorem compareInt_anti (x y : List Char) : compareInt x y = - compareInt y x := by
  unfold compareInt
  by_cases h : x = y
  · subst h; simp
  · have h' : ¬ y = x := fun e => h e.symm
    simp only [h, h', if_false]
    by_cases h1 : x.length < y.length
    · have h2 : ¬ y.length < x.length := by omega
      simp [h1, h2]
    · by_cases h2 : y.length < x.length
      · simp [h1, h2]
      · simp only [h1, h2, gt_iff_lt, if_false]
        rcases stringLess_total x y h with h3 | h3
        · simp [h3, stringLess_asymm x y h3]
        · simp [h3, stringLess_asymm y x h3]

theorem compareInt_lt_iff {x y : List Char} : compareInt x y = -1 ↔
    x.length < y.length ∨ (x.length = y.length ∧ stringLess x y = true) := by
  unfold compareInt
  by_cases h : x = y
  · subst h; simp [stringLess_irrefl]
  · simp only [h, if_false]
    by_cases h1 : x.length < y.length
    · simp [h1]
    · by_cases h2 : y.length < x.length
      · simp [h1, h2]; omega
      · have : x.length = y.length := by omega
        simp [h1, h2, this]

theorem compareInt_trans {x y z : List Char} (h1 : compareInt x y = -1) (h2 : compareInt y z = -1) :
    compareInt x z = -1 := by
  rw [compareInt_lt_iff] at h1 h2 ⊢
  rcases h1 with h1 | ⟨h1, h1'⟩ <;> rcases h2 with h2 | ⟨h2, h2'⟩
  · left; omega
  · left; omega
  · left; omega
  · right; exact ⟨by omega, stringLess_trans x y z h1' h2'⟩


/-- The values of `compareIdent`. -/
theorem compareIdent_cases (x y : List Char) : compareIdent x y = -1 ∨ compareIdent x y = 1 := by
  unfold compareIdent
  split_ifs <;> simp

theorem compareIdent_lt_iff {x y : List Char} : compareIdent x y = -1 ↔
    (isNum x = true ∧ isNum y = false) ∨
    (isNum x = true ∧ isNum y = true ∧ x.length < y.length) ∨
    (isNum x = true ∧ isNum y = true ∧ x.length = y.length ∧ stringLess x y = true) ∨
    (isNum x = false ∧ isNum y = false ∧ stringLess x y = true) := by
  unfold compareIdent
  cases hx : isNum x <;> cases hy : isNum y <;> simp
  by_cases h1 : x.length < y.length
  · simp [h1]
  · by_cases h2 : y.length < x.length
    · simp [h1, h2]; omega
    · have : x.length = y.length := by omega
      simp [h1, h2, this]

theorem compareIdent_anti {x y : List Char} (h : x ≠ y) : compareIdent x y = - compareIdent y x := by
  have key : ∀ a b : List Char, a ≠ b → compareIdent a b = -1 → compareIdent b a = 1 := by
    intro a b hab h1
    rcases compareIdent_cases b a with h2 | h2
    · exfalso
      rw [compareIdent_lt_iff] at h1 h2
      cases ha : isNum a <;> cases hb : isNum b <;> simp [ha, hb] at h1 h2
      · have := stringLess_asymm _ _ h1
        rw [this] at h2; cases h2
      · rcases h1 with h1 | ⟨h1, h1'⟩ <;> rcases h2 with h2 | ⟨h2, h2'⟩
        · omega
        · omega
        · omega
        · have := stringLess_asymm _ _ h1'
          rw [this] at h2'; cases h2'
    · exact h2
  have key2 : ∀ a b : List Char, a ≠ b → compareIdent a b = 1 → compareIdent b a = -1 := by
    intro a b hab h1
    rw [compareIdent_lt_iff]
    have h1' : ¬ compareIdent a b = -1 := by rw [h1]; decide
    rw [compareIdent_lt_iff] at h1'
    cases ha : isNum a <;> cases hb : isNum b <;> simp [ha, hb] at h1' ⊢
    · rcases stringLess_total a b hab with h3 | h3
      · rw [h1'] at h3; cases h3
      · exact h3
    · have h4 : ¬ a.length < b.length := by omega
      by_cases h5 : b.length < a.length
      · left; exact h5
      · right
        have h6 : a.length = b.length := by omega
        refine ⟨h6.symm, ?_⟩
        rcases stringLess_total a b hab with h3 | h3
        · have := h1'.2 h6; rw [this] at h3; cases h3
        · exact h3
  rcases compareIdent_cases x y with h1 | h1
  · rw [h1, key x y h h1]
  · rw [h1, key2 x y h h1]; rfl

theorem compareIdent_trans {x y z : List Char} (h1 : compareIdent x y = -1)
    (h2 : compareIdent y z = -1) : compareIdent x z = -1 := by
  rw [compareIdent_lt_iff] at h1 h2 ⊢
  cases hx : isNum x <;> cases hy : isNum y <;> cases hz : isNum z <;>
    simp [hx, hy, hz] at h1 h2 ⊢
  · exact stringLess_trans _ _ _ h1 h2
  · rcases h1 with h1 | ⟨h1, h1'⟩ <;> rcases h2 with h2 | ⟨h2, h2'⟩
    · left; omega
    · left; omega
    · left; omega
    · right; exact ⟨by omega, stringLess_trans _ _ _ h1' h2'⟩

theorem compareIdent_ne_of_lt {x y : List Char} (h : compareIdent x y = -1) : x ≠ y := by
  intro e
  subst e
  rw [compareIdent_lt_iff] at h
  rcases h with ⟨a1, a2⟩ | ⟨a1, a2, a3⟩ | ⟨a1, a2, a3, a4⟩ | ⟨a1, a2, a3⟩
  · rw [a1] at a2; cases a2
  · omega
  · rw [stringLess_irrefl] at a4; cases a4
  · rw [stringLess_irrefl] at a3; cases a3

theorem compareIdents_cases : ∀ (xs ys : List (List Char)),
    compareIdents xs ys = -1 ∨ compareIdents xs ys = 1
  | [], _ => by simp [compareIdents]
  | _ :: _, [] => by simp [compareIdents]
  | dx :: xs, dy :: ys => by
    simp only [compareIdents]
    split_ifs
    · exact compareIdent_cases dx dy
    · exact compareIdents_cases xs ys

theorem compareIdents_anti : ∀ (xs ys : List (List Char)), xs ≠ ys →
    compareIdents xs ys = - compareIdents ys xs
  | [], [], h => absurd rfl h
  | [], _ :: _, _ => by simp [compareIdents]
  | _ :: _, [], _ => by simp [compareIdents]
  | dx :: xs, dy :: ys, h => by
    simp only [compareIdents]
    by_cases hd : dx = dy
    · subst hd
      simp only [ne_eq, not_true_eq_false, if_false]
      exact compareIdents_anti xs ys (fun e => h (by rw [e]))
    · have hd' : ¬ dy = dx := fun e => hd e.symm
      simp only [ne_eq, hd, hd', not_false_eq_true, if_true]
      exact compareIdent_anti hd

theorem compareIdents_trans : ∀ (xs ys zs : List (List Char)),
    compareIdents xs ys = -1 → compareIdents ys zs = -1 → compareIdents xs zs = -1
  | [], _, _, _, _ => by simp [compareIdents]
  | _ :: _, [], _, h, _ => by simp [compareIdents] at h
  | _ :: _, _ :: _, [], _, h => by simp [compareIdents] at h
  | dx :: xs, dy :: ys, dz :: zs, h1, h2 => by
    simp only [compareIdents] at h1 h2 ⊢
    by_cases hxy : dx = dy
    · subst hxy
      by_cases hyz : dx = dz
      · subst hyz
        simp only [ne_eq, not_true_eq_false, if_false] at h1 h2 ⊢
        exact compareIdents_trans xs ys zs h1 h2
      · simp only [ne_eq, not_true_eq_false, if_false] at h1
        simp only [ne_eq, hyz, not_false_eq_true, if_true] at h2 ⊢
        exact h2
    · simp only [ne_eq, hxy, not_false_eq_true, if_true] at h1
      by_cases hyz : dy = dz
      · subst hyz
        simp only [ne_eq, hxy, not_false_eq_true, if_true]
        exact h1
      · simp only [ne_eq, hyz, not_false_eq_true, if_true] at h2
        have h3 := compareIdent_trans h1 h2
        have hxz := compareIdent_ne_of_lt h3
        simp only [ne_eq, hxz, not_false_eq_true, if_true]
        exact h3

theorem splitDots_ne_nil (x : List Char) : splitDots x ≠ [] := by
  cases x with
  | nil => simp [splitDots]
  | cons c cs =>
    simp only [splitDots]
    split_ifs
    · simp
    · split <;> simp

theorem joinDots_splitDots (x : List Char) : joinDots (splitDots x) = x := by
  induction x with
  | nil => rfl
  | cons c cs ih =>
    simp only [splitDots]
    by_cases h : c.toNat = 46
    · simp only [h, if_true]
      have hc : c = Char.ofNat 46 := char_eq_of_toNat_eq (by rw [h]; rfl)
      cases hs : splitDots cs with
      | nil => exact absurd hs (splitDots_ne_nil cs)
      | cons d ds =>
        rw [hs] at ih
        simp [joinDots, ih, hc]
    · simp only [h, if_false]
      cases hs : splitDots cs with
      | nil => exact absurd hs (splitDots_ne_nil cs)
      | cons d ds =>
        rw [hs] at ih
        cases ds with
        | nil => simp [joinDots] at ih ⊢; exact ih
        | cons e es => simp [joinDots] at ih ⊢; exact ih

theorem splitDots_injective {x y : List Char} (h : splitDots x = splitDots y) : x = y := by
  rw [← joinDots_splitDots x, ← joinDots_splitDots y, h]

theorem tail_ne_of_wf {x y : List Char} (hx : wfPrerelease x) (hy : wfPrerelease y)
    (hx0 : x ≠ []) (hy0 : y ≠ []) (hxy : x ≠ y) : splitDots x.tail ≠ splitDots y.tail := by
  intro h
  have ht := splitDots_injective h
  cases x with
  | nil => exact hx0 rfl
  | cons a x =>
    cases y with
    | nil => exact hy0 rfl
    | cons b y =>
      rcases hx with hx | hx
      · exact hx0 hx
      · rcases hy with hy | hy
        · exact hy0 hy
        · simp at hx hy ht
          exact hxy (by rw [hx, hy, ht])

theorem comparePrerelease_cases (x y : List Char) :
    comparePrerelease x y = 0 ∨ comparePrerelease x y = -1 ∨ comparePrerelease x y = 1 := by
  unfold comparePrerelease
  split_ifs
  · simp
  · simp
  · simp
  · rcases compareIdents_cases (splitDots x.tail) (splitDots y.tail) with h | h <;> simp [h]

theorem comparePrerelease_eq_zero {x y : List Char} : comparePrerelease x y = 0 ↔ x = y := by
  unfold comparePrerelease
  by_cases h : x = y
  · simp [h]
  · simp only [h, if_false]
    split_ifs
    · simp
    · simp
    · rcases compareIdents_cases (splitDots x.tail) (splitDots y.tail) with h1 | h1 <;> simp [h1]

theorem comparePrerelease_anti {x y : List Char} (hx : wfPrerelease x) (hy : wfPrerelease y) :
    comparePrerelease x y = - comparePrerelease y x := by
  unfold comparePrerelease
  by_cases h : x = y
  · subst h; simp
  · have h' : ¬ y = x := fun e => h e.symm
    simp only [h, h', if_false]
    by_cases hx0 : x = []
    · have hy0 : y ≠ [] := fun e => h (by rw [hx0, e])
      simp [hx0, hy0]
    · by_cases hy0 : y = []
      · simp [hx0, hy0]
      · simp only [hx0, hy0, if_false]
        exact compareIdents_anti _ _ (tail_ne_of_wf hx hy hx0 hy0 h)

theorem comparePrerelease_lt_iff {x y : List Char} : comparePrerelease x y = -1 ↔
    x ≠ y ∧ x ≠ [] ∧ (y = [] ∨ compareIdents (splitDots x.tail) (splitDots y.tail) = -1) := by
  unfold comparePrerelease
  by_cases h : x = y
  · simp [h]
  · by_cases hx0 : x = []
    · have hy0 : ¬ y = [] := fun e => h (by rw [hx0, e])
      have hy1 : ¬ [] = y := fun e => hy0 e.symm
      simp [hx0, hy0, hy1]
    · by_cases hy0 : y = []
      · simp [h, hx0, hy0]
      · simp [h, hx0, hy0]

theorem comparePrerelease_trans {x y z : List Char} (hx : wfPrerelease x) (hy : wfPrerelease y)
    (hz : wfPrerelease z) (h1 : comparePrerelease x y = -1) (h2 : comparePrerelease y z = -1) :
    comparePrerelease x z = -1 := by
  have hxz : x ≠ z := by
    intro e
    subst e
    have := comparePrerelease_anti hx hy
    rw [h1, h2] at this
    exact absurd this (by decide)
  rw [comparePrerelease_lt_iff] at h1 h2 ⊢
  obtain ⟨_, hx0, h1⟩ := h1
  obtain ⟨_, hy0, h2⟩ := h2
  refine ⟨hxz, hx0, ?_⟩
  rcases h1 with h1 | h1
  · exact absurd h1 hy0
  · rcases h2 with h2 | h2
    · left; exact h2
    · right; exact compareIdents_trans _ _ _ h1 h2

theorem strictCmp_compareInt : StrictCmp (fun _ => True) compareInt where
  cases a b := by
    rcases compareInt_cases a b with h | h | h
    · exact Or.inl h.1
    · exact Or.inr (Or.inl h.1)
    · exact Or.inr (Or.inr h.1)
  zero_iff _ _ _ _ := compareInt_eq_zero
  anti a b _ _ := compareInt_anti a b
  trans _ _ _ _ _ _ := compareInt_trans

theorem strictCmp_comparePrerelease : StrictCmp wfPrerelease comparePrerelease where
  cases := comparePrerelease_cases
  zero_iff _ _ _ _ := comparePrerelease_eq_zero
  anti _ _ ha hb := comparePrerelease_anti ha hb
  trans _ _ _ ha hb hc := comparePrerelease_trans ha hb hc

/-- The lexicographic combination of two strict total comparisons is one. -/
theorem strictCmp_lex {α β : Type} {D : α → Prop} {E : β → Prop} {f : α → α → Int}
    {g : β → β → Int} (hf : StrictCmp D f) (hg : StrictCmp E g) :
    StrictCmp (fun p : α × β => D p.1 ∧ E p.2)
      (fun p q => lexStep (f p.1 q.1) (g p.2 q.2)) where
  cases := by
    rintro ⟨a, b⟩ ⟨a', b'⟩
    simp only [lexStep]
    rcases hf.cases a a' with h | h | h <;> simp [h]
    exact hg.cases b b'
  zero_iff := by
    rintro ⟨a, b⟩ ⟨a', b'⟩ ⟨ha, hb⟩ ⟨ha', hb'⟩
    simp only [lexStep, Prod.mk.injEq]
    by_cases h : f a a' = 0
    · simp only [h, ne_eq, not_true_eq_false, if_false]
      rw [hg.zero_iff b b' hb hb', ← hf.zero_iff a a' ha ha']
      simp [h]
    · simp only [ne_eq, h, not_false_eq_true, if_true]
      rw [← hf.zero_iff a a' ha ha']
      simp [h]
  anti := by
    rintro ⟨a, b⟩ ⟨a', b'⟩ ⟨ha, hb⟩ ⟨ha', hb'⟩
    simp only [lexStep]
    have h1 := hf.anti a a' ha ha'
    have h2 := hg.anti b b' hb hb'
    by_cases h : f a a' = 0
    · have h' : f a' a = 0 := by omega
      simp [h, h', h2]
    · have h' : f a' a ≠ 0 := by omega
      simp [h, h', h1]
  trans := by
    rintro ⟨a1, b1⟩ ⟨a2, b2⟩ ⟨a3, b3⟩ ⟨ha1, hb1⟩ ⟨ha2, hb2⟩ ⟨ha3, hb3⟩ h12 h23
    simp only [lexStep] at h12 h23 ⊢
    by_cases e12 : f a1 a2 = 0
    · have := (hf.zero_iff a1 a2 ha1 ha2).1 e12
      subst this
      simp only [e12, ne_eq, not_true_eq_false, if_false] at h12
      by_cases e23 : f a1 a3 = 0
      · simp only [e23, ne_eq, not_true_eq_false, if_false] at h23 ⊢
        exact hg.trans b1 b2 b3 hb1 hb2 hb3 h12 h23
      · simp only [ne_eq, e23, not_false_eq_true, if_true] at h23 ⊢
        exact h23
    · simp only [ne_eq, e12, not_false_eq_true, if_true] at h12
      by_cases e23 : f a2 a3 = 0
      · have := (hf.zero_iff a2 a3 ha2 ha3).1 e23
        subst this
        simp [h12]
      · simp only [ne_eq, e23, not_false_eq_true, if_true] at h23
        have h13 := hf.trans a1 a2 a3 ha1 ha2 ha3 h12 h23
        simp [h13]

theorem strictCmp_key : StrictCmp
    (fun k : List Char × List Char × List Char × List Char => wfPrerelease k.2.2.2)
    (fun k l => lexStep (compareInt k.1 l.1) (lexStep (compareInt k.2.1 l.2.1)
      (lexStep (compareInt k.2.2.1 l.2.2.1) (comparePrerelease k.2.2.2 l.2.2.2)))) := by
  have h := strictCmp_lex strictCmp_compareInt
    (strictCmp_lex strictCmp_compareInt (strictCmp_lex strictCmp_compareInt strictCmp_comparePrerelease))
  refine ⟨h.cases, ?_, ?_, ?_⟩
  · intro a b ha hb
    exact h.zero_iff a b ⟨trivial, trivial, trivial, ha⟩ ⟨trivial, trivial, trivial, hb⟩
  · intro a b ha hb
    exact h.anti a b ⟨trivial, trivial, trivial, ha⟩ ⟨trivial, trivial, trivial, hb⟩
  · intro a b c ha hb hc
    exact h.trans a b c ⟨trivial, trivial, trivial, ha⟩ ⟨trivial, trivial, trivial, hb⟩
      ⟨trivial, trivial, trivial, hc⟩

theorem compareParsed_cases (p q : parsed) :
    compareParsed p q = 0 ∨ compareParsed p q = -1 ∨ compareParsed p q = 1 :=
  strictCmp_key.cases p.key q.key

theorem compareParsed_eq_zero {p q : parsed} (hp : wfPrerelease p.prerelease)
    (hq : wfPrerelease q.prerelease) : compareParsed p q = 0 ↔ p.key = q.key :=
  strictCmp_key.zero_iff p.key q.key hp hq

theorem compareParsed_anti {p q : parsed} (hp : wfPrerelease p.prerelease)
    (hq : wfPrerelease q.prerelease) : compareParsed p q = - compareParsed q p :=
  strictCmp_key.anti p.key q.key hp hq

theorem compareParsed_trans {p q r : parsed} (hp : wfPrerelease p.prerelease)
    (hq : wfPrerelease q.prerelease) (hr : wfPrerelease r.prerelease)
    (h1 : compareParsed p q = -1) (h2 : compareParsed q r = -1) : compareParsed p r = -1 :=
  strictCmp_key.trans p.key q.key r.key hp hq hr h1 h2

theorem compareParsed_congr_left {p q : parsed} (h : p.key = q.key) (r : parsed) :
    compareParsed p r = compareParsed q r := by
  simp only [parsed.key, Prod.mk.injEq] at h
  obtain ⟨h1, h2, h3, h4⟩ := h
  simp [compareParsed, h1, h2, h3, h4]

theorem compareParsed_le_trans {p q r : parsed} (hp : wfPrerelease p.prerelease)
    (hq : wfPrerelease q.prerelease) (hr : wfPrerelease r.prerelease)
    (h1 : compareParsed p q ≤ 0) (h2 : compareParsed q r ≤ 0) : compareParsed p r ≤ 0 := by
  rcases compareParsed_cases p q with e1 | e1 | e1
  · rw [compareParsed_congr_left ((compareParsed_eq_zero hp hq).1 e1)]
    exact h2
  · rcases compareParsed_cases q r with e2 | e2 | e2
    · have hk := (compareParsed_eq_zero hq hr).1 e2
      have := compareParsed_anti hp hr
      rw [compareParsed_congr_left hk.symm, ← compareParsed_anti hp hq] at this
      rw [this, e1]; decide
    · rw [compareParsed_trans hp hq hr e1 e2]; decide
    · omega
  · omega

theorem isDigit_versionChar {c : Char} (h : isDigit c = true) : isVersionChar c = true := by
  simp [isVersionChar, isIdentChar, h]

theorem all_digit_versionChar {t : List Char} (h : t.all isDigit = true) :
    t.all isVersionChar = true := by
  rw [List.all_eq_true] at h ⊢
  exact fun c hc => isDigit_versionChar (h c hc)

theorem parseInt_some {v t rest : List Char} (h : parseInt v = some (t, rest)) :
    v = t ++ rest ∧ isNumeral t := by
  cases v with
  | nil => simp [parseInt] at h
  | cons c cs =>
    simp only [parseInt] at h
    split_ifs at h with h1 h2
    simp only [Option.some.injEq, Prod.mk.injEq] at h
    obtain ⟨ht, hr⟩ := h
    subst ht hr
    refine ⟨by simp, by simp, ?_, ?_⟩
    · simp only [List.all_cons, List.all_takeWhile, Bool.and_true]
      simpa using h1
    · intro hc
      simp only [List.head?_cons, Option.some.injEq] at hc
      by_contra hl
      exact h2 ⟨by rw [hc]; rfl, hl⟩

theorem takeWhile_idem {α : Type} (q : α → Bool) (l : List α) :
    (l.takeWhile q).takeWhile q = l.takeWhile q := by
  rw [List.takeWhile_eq_self_iff]
  intro x hx
  have : (l.takeWhile q).all q = true := List.all_takeWhile
  rw [List.all_eq_true] at this
  exact this x hx

theorem dropWhile_takeWhile {α : Type} (q : α → Bool) (l : List α) :
    (l.takeWhile q).dropWhile q = [] := by
  rw [List.dropWhile_eq_nil_iff]
  intro x hx
  have : (l.takeWhile q).all q = true := List.all_takeWhile
  rw [List.all_eq_true] at this
  exact this x hx

theorem parsePrerelease_self {v t rest : List Char} (h : parsePrerelease v = some (t, rest)) :
    parsePrerelease t = some (t, []) := by
  cases v with
  | nil => simp [parsePrerelease] at h
  | cons c cs =>
    simp only [parsePrerelease] at h
    split_ifs at h with h1 h2
    simp only [Option.some.injEq, Prod.mk.injEq] at h
    obtain ⟨ht, hr⟩ := h
    subst ht
    simp only [parsePrerelease, h1, if_false, takeWhile_idem, h2, if_true, dropWhile_takeWhile]

theorem parsePrerelease_some {v t rest : List Char} (h : parsePrerelease v = some (t, rest)) :
    v = t ++ rest ∧ t.head? = some (Char.ofNat 45) ∧ t.all isVersionChar = true := by
  cases v with
  | nil => simp [parsePrerelease] at h
  | cons c cs =>
    simp only [parsePrerelease] at h
    split_ifs at h with h1 h2
    simp only [Option.some.injEq, Prod.mk.injEq] at h
    obtain ⟨ht, hr⟩ := h
    subst ht hr
    have hc : c = Char.ofNat 45 := char_eq_of_toNat_eq (by
      have : c.toNat = 45 := by simpa using h1
      rw [this]; rfl)
    refine ⟨by simp, by simp [hc], ?_⟩
    simp only [Bool.and_eq_true] at h2
    simp only [List.all_cons, Bool.and_eq_true]
    refine ⟨by rw [hc]; decide, ?_⟩
    have h3 := h2.1
    rw [List.all_eq_true] at h3 ⊢
    intro d hd
    have := h3 d hd
    simp only [Bool.or_eq_true, decide_eq_true_eq] at this
    rcases this with h4 | h4
    · simp [isVersionChar, h4]
    · simp [isVersionChar, h4]

theorem parseBuild_some {v t rest : List Char} (h : parseBuild v = some (t, rest)) :
    v = t ∧ rest = [] ∧ t.all isVersionChar = true := by
  cases v with
  | nil => simp [parseBuild] at h
  | cons c cs =>
    simp only [parseBuild] at h
    split_ifs at h with h1 h2
    simp only [Option.some.injEq, Prod.mk.injEq] at h
    obtain ⟨ht, hr⟩ := h
    subst ht hr
    refine ⟨rfl, rfl, ?_⟩
    simp only [Bool.and_eq_true] at h2
    simp only [List.all_cons, Bool.and_eq_true]
    refine ⟨?_, ?_⟩
    · have : c.toNat = 43 := by simpa using h1
      simp [isVersionChar, this]
    · have h3 := h2.1
      rw [List.all_eq_true] at h3 ⊢
      intro d hd
      have := h3 d hd
      simp only [Bool.or_eq_true, decide_eq_true_eq] at this
      rcases this with h4 | h4
      · simp [isVersionChar, h4]
      · simp [isVersionChar, h4]

theorem parseTail_some {v pre build : List Char} (h : parseTail v = some (pre, build)) :
    v = pre ++ build ∧ wfPrerelease pre ∧ pre.all isVersionChar = true ∧
      build.all isVersionChar = true ∧
      (pre = [] ∨ parsePrerelease pre = some (pre, [])) ∧
      (build = [] ∨ parseBuild build = some (build, [])) := by
  unfold parseTail at h
  split at h
  · cases h
  · rename_i pre1 v1 hpre
    split at h
    · cases h
    · rename_i build1 v2 hbuild
      split_ifs at h with hv2
      simp only [Option.some.injEq, Prod.mk.injEq] at h
      obtain ⟨e1, e2⟩ := h
      subst e1 e2 hv2
      have hp : v = pre1 ++ v1 ∧ wfPrerelease pre1 ∧ pre1.all isVersionChar = true ∧
          (pre1 = [] ∨ parsePrerelease pre1 = some (pre1, [])) := by
        split_ifs at hpre with hh
        · have := parsePrerelease_some hpre
          exact ⟨this.1, Or.inr this.2.1, this.2.2, Or.inr (parsePrerelease_self hpre)⟩
        · simp only [Option.some.injEq, Prod.mk.injEq] at hpre
          obtain ⟨e1, e2⟩ := hpre
          subst e1 e2
          exact ⟨by simp, Or.inl rfl, by simp, Or.inl rfl⟩
      have hb : v1 = build1 ∧ build1.all isVersionChar = true ∧
          (build1 = [] ∨ parseBuild build1 = some (build1, [])) := by
        split_ifs at hbuild with hh
        · have := parseBuild_some hbuild
          refine ⟨this.1, this.2.2, Or.inr ?_⟩
          rw [this.1, this.2.1] at hbuild
          exact hbuild
        · simp only [Option.some.injEq, Prod.mk.injEq] at hbuild
          obtain ⟨e1, e2⟩ := hbuild
          subst e1 e2
          exact ⟨rfl, by simp, Or.inl rfl⟩
      exact ⟨by rw [hp.1, hb.1], hp.2.1, hp.2.2.1, hb.2.1, hp.2.2.2, hb.2.2⟩

theorem isNumeral_zero : isNumeral [Char.ofNat 48] := by
  refine ⟨by simp, by decide, fun _ => rfl⟩

/-- What a successful `parse` says about its input. -/
theorem parse_some {v : List Char} {p : parsed} (h : parse v = some p) :
    p.WF ∧ v ++ p.short = p.canonical ++ p.build := by
  cases v with
  | nil => simp [parse] at h
  | cons c v1 =>
    simp only [parse] at h
    split_ifs at h with hc
    have hc' : c = Char.ofNat 118 := char_eq_of_toNat_eq (by
      have : c.toNat = 118 := by simpa using hc
      rw [this]; rfl)
    subst hc'
    split at h
    · cases h
    · rename_i major hmaj
      have hm := parseInt_some hmaj
      simp only [Option.some.injEq] at h
      subst h
      refine ⟨⟨hm.2, isNumeral_zero, isNumeral_zero, Or.inl rfl, by simp, by simp, fun _ => rfl,
        Or.inl rfl, Or.inl rfl⟩, ?_⟩
      simp [parsed.canonical, hm.1]
    · rename_i major d v2 hmaj
      have hm := parseInt_some hmaj
      split_ifs at h with hd
      have hd' : d = Char.ofNat 46 := char_eq_of_toNat_eq (by
        have : d.toNat = 46 := by simpa using hd
        rw [this]; rfl)
      subst hd'
      split at h
      · cases h
      · rename_i minor hmin
        have hn := parseInt_some hmin
        simp only [Option.some.injEq] at h
        subst h
        refine ⟨⟨hm.2, hn.2, isNumeral_zero, Or.inl rfl, by simp, by simp, fun _ => rfl,
          Or.inl rfl, Or.inl rfl⟩, ?_⟩
        simp [parsed.canonical, hm.1, hn.1]
      · rename_i minor e v3 hmin
        have hn := parseInt_some hmin
        split_ifs at h with he
        have he' : e = Char.ofNat 46 := char_eq_of_toNat_eq (by
          have : e.toNat = 46 := by simpa using he
          rw [this]; rfl)
        subst he'
        split at h
        · cases h
        · rename_i patch v4 hpat
          have hp := parseInt_some hpat
          split at h
          · cases h
          · rename_i pre build htail
            have ht := parseTail_some htail
            simp only [Option.some.injEq] at h
            subst h
            refine ⟨⟨hm.2, hn.2, hp.2, ht.2.1, ht.2.2.1, ht.2.2.2.1, fun hs => absurd rfl hs,
              ht.2.2.2.2.1, ht.2.2.2.2.2⟩, ?_⟩
            simp [parsed.canonical, hm.1, hn.1, hp.1, ht.1]

theorem canonical_data {v : String} {p : parsed} (h : parse v.data = some p) :
    (Canonical v).data = p.canonical := by
  have hs := parse_some h
  unfold Canonical
  simp only [h]
  by_cases hb : p.build = []
  · by_cases hsh : p.short = []
    · simp only [hb, hsh, ne_eq, not_true_eq_false, if_false]
      have := hs.2
      rw [hb, hsh] at this
      simpa using this
    · simp only [hb, hsh, ne_eq, not_true_eq_false, not_false_eq_true, if_false, if_true]
      have := hs.2
      rw [hb] at this
      simpa using this
  · have hsh : p.short = [] := by
      by_contra hne
      exact hb (hs.1.short hne)
    simp only [ne_eq, hb, not_false_eq_true, if_true]
    have := hs.2
    rw [hsh] at this
    simp only [List.append_nil] at this
    rw [this]
    simp

theorem canonical_invalid {v : String} (h : parse v.data = none) : Canonical v = "" := by
  unfold Canonical
  simp [h]

theorem canonical_chars {p : parsed} (h : p.WF) : p.canonical.all isVersionChar = true := by
  have h1 : isVersionChar (Char.ofNat 118) = true := by decide
  have h2 : isVersionChar (Char.ofNat 46) = true := by decide
  simp only [parsed.canonical, List.all_cons, List.all_append, Bool.and_eq_true, h1, h2,
    all_digit_versionChar h.major.2.1, all_digit_versionChar h.minor.2.1,
    all_digit_versionChar h.patch.2.1, h.prereleaseChars, and_self]

theorem valid_chars {v : List Char} {p : parsed} (h : parse v = some p) :
    v.all isVersionChar = true := by
  have hs := parse_some h
  have h1 : (v ++ p.short).all isVersionChar = true := by
    rw [hs.2, List.all_append, canonical_chars hs.1, hs.1.buildChars]
    rfl
  rw [List.all_append, Bool.and_eq_true] at h1
  exact h1.1

theorem digitValue_le {c : Char} (h : isDigit c = true) : digitValue c ≤ 9 := by
  simp only [isDigit, Bool.and_eq_true, decide_eq_true_eq] at h
  unfold digitValue
  omega

theorem decimalValue_lt : ∀ (t : List Char), t.all isDigit = true → decimalValue t < 10 ^ t.length
  | [], _ => by simp [decimalValue]
  | c :: cs, h => by
    simp only [List.all_cons, Bool.and_eq_true] at h
    have ih := decimalValue_lt cs h.2
    have hd := digitValue_le h.1
    have hm : digitValue c * 10 ^ cs.length ≤ 9 * 10 ^ cs.length := Nat.mul_le_mul_right _ hd
    simp only [decimalValue, List.length_cons, Nat.pow_succ]
    omega

theorem decimalValue_ge {c : Char} {cs : List Char} (h : isDigit c = true) (h0 : c.toNat ≠ 48) :
    10 ^ cs.length ≤ decimalValue (c :: cs) := by
  have hd : 1 ≤ digitValue c := by
    simp only [isDigit, Bool.and_eq_true, decide_eq_true_eq] at h
    unfold digitValue
    omega
  have hm : 1 * 10 ^ cs.length ≤ digitValue c * 10 ^ cs.length := Nat.mul_le_mul_right _ hd
  simp only [decimalValue]
  omega

theorem decimalValue_lt_of_stringLess : ∀ (x y : List Char), x.length = y.length →
    x.all isDigit = true → y.all isDigit = true → stringLess x y = true →
    decimalValue x < decimalValue y
  | _, [], _, _, _, h => by simp [stringLess] at h
  | [], _ :: _, hl, _, _, _ => by simp at hl
  | a :: x, b :: y, hl, hx, hy, h => by
    simp only [List.all_cons, Bool.and_eq_true] at hx hy
    simp only [List.length_cons, Nat.add_right_cancel_iff] at hl
    simp only [stringLess] at h
    simp only [decimalValue]
    have hxlt := decimalValue_lt x hx.2
    have ha := hx.1
    have hb := hy.1
    simp only [isDigit, Bool.and_eq_true, decide_eq_true_eq] at ha hb
    by_cases h1 : a.toNat < b.toNat
    · have hd : digitValue a + 1 ≤ digitValue b := by unfold digitValue; omega
      have hm : (digitValue a + 1) * 10 ^ x.length ≤ digitValue b * 10 ^ x.length :=
        Nat.mul_le_mul_right _ hd
      rw [Nat.add_mul] at hm
      rw [← hl]
      omega
    · by_cases h2 : b.toNat < a.toNat
      · simp [h1, h2] at h
      · simp only [h1, h2, if_false] at h
        have ih := decimalValue_lt_of_stringLess x y hl hx.2 hy.2 h
        have hd : digitValue a = digitValue b := by unfold digitValue; omega
        rw [hd, hl]
        omega

theorem decimalValue_lt_of_length {x y : List Char} (hx : isNumeral x) (hy : isNumeral y)
    (hl : x.length < y.length) : decimalValue x < decimalValue y := by
  have h1 := decimalValue_lt x hx.2.1
  obtain ⟨hy0, hyd, hyz⟩ := hy
  cases y with
  | nil => exact absurd rfl hy0
  | cons c cs =>
    simp only [List.all_cons, Bool.and_eq_true] at hyd
    have hc : c.toNat ≠ 48 := by
      intro e
      have hc' : c = Char.ofNat 48 := char_eq_of_toNat_eq (by rw [e]; rfl)
      have := hyz (by simp [hc'])
      simp only [List.length_cons] at this hl
      have hx0 := hx.1
      have : 0 < x.length := List.length_pos.2 hx0
      omega
    have h2 : 10 ^ cs.length ≤ decimalValue (c :: cs) := decimalValue_ge hyd.1 hc
    simp only [List.length_cons] at hl
    have h3 : 10 ^ x.length ≤ 10 ^ cs.length := Nat.pow_le_pow_right (by decide) (by omega)
    omega

/-- On numerals `compareInt` is the comparison of the numbers. -/
theorem compareInt_numeric {x y : List Char} (hx : isNumeral x) (hy : isNumeral y) :
    compareInt x y = compareNat (decimalValue x) (decimalValue y) := by
  unfold compareInt compareNat
  by_cases h : x = y
  · subst h; simp
  · simp only [h, if_false]
    by_cases h1 : x.length < y.length
    · have := decimalValue_lt_of_length hx hy h1
      simp [h1, this]
    · by_cases h2 : y.length < x.length
      · have := decimalValue_lt_of_length hy hx h2
        have h3 : ¬ decimalValue x < decimalValue y := by omega
        simp [h1, h2, this, h3]
      · have hl : x.length = y.length := by omega
        simp only [h1, h2, gt_iff_lt, if_false]
        rcases stringLess_total x y h with h3 | h3
        · have := decimalValue_lt_of_stringLess x y hl hx.2.1 hy.2.1 h3
          simp [h3, this]
        · have := decimalValue_lt_of_stringLess y x hl.symm hy.2.1 hx.2.1 h3
          have h4 : ¬ decimalValue x < decimalValue y := by omega
          simp [stringLess_asymm y x h3, this, h4]

/-- On two valid versions `Compare` is the comparison of their parsed forms. -/
theorem compare_valid {v w : String} {pv pw : parsed} (hv : parse v.data = some pv)
    (hw : parse w.data = some pw) : Compare v w = compareParsed pv pw := by
  unfold Compare
  simp only [hv, hw]
  rfl

theorem compare_invalid_left {v : String} (hv : parse v.data = none) (w : String) :
    Compare v w = 0 ∨ Compare v w = -1 := by
  unfold Compare
  cases hw : parse w.data <;> simp [hv]

theorem compare_valid_invalid {v w : String} {pv : parsed} (hv : parse v.data = some pv)
    (hw : parse w.data = none) : Compare v w = 1 := by
  unfold Compare
  simp [hv, hw]

theorem compare_cases (v w : String) : Compare v w = 0 ∨ Compare v w = -1 ∨ Compare v w = 1 := by
  cases hv : parse v.data with
  | none =>
    rcases compare_invalid_left hv w with h | h
    · exact Or.inl h
    · exact Or.inr (Or.inl h)
  | some pv =>
    cases hw : parse w.data with
    | none => exact Or.inr (Or.inr (compare_valid_invalid hv hw))
    | some pw =>
      rw [compare_valid hv hw]
      exact compareParsed_cases pv pw

theorem compare_anti (v w : String) : Compare v w = - Compare w v := by
  cases hv : parse v.data with
  | none =>
    cases hw : parse w.data with
    | none => simp [Compare, hv, hw]
    | some pw => simp [Compare, hv, hw]
  | some pv =>
    cases hw : parse w.data with
    | none => simp [Compare, hv, hw]
    | some pw =>
      rw [compare_valid hv hw, compare_valid hw hv]
      exact compareParsed_anti (parse_some hv).1.prerelease (parse_some hw).1.prerelease

theorem compare_self (v : String) : Compare v v = 0 := by
  have := compare_anti v v
  omega

theorem canonical_eq_of_key {v w : String} {pv pw : parsed} (hv : parse v.data = some pv)
    (hw : parse w.data = some pw) (h : pv.key = pw.key) : Canonical v = Canonical w := by
  apply String.ext
  rw [canonical_data hv, canonical_data hw]
  simp only [parsed.key, Prod.mk.injEq] at h
  obtain ⟨h1, h2, h3, h4⟩ := h
  simp [parsed.canonical, h1, h2, h3, h4]

theorem canonical_eq_of_compare_zero {v w : String} (h : Compare v w = 0) :
    Canonical v = Canonical w := by
  cases hv : parse v.data with
  | none =>
    cases hw : parse w.data with
    | none => rw [canonical_invalid hv, canonical_invalid hw]
    | some pw => simp [Compare, hv, hw] at h
  | some pv =>
    cases hw : parse w.data with
    | none => simp [Compare, hv, hw] at h
    | some pw =>
      rw [compare_valid hv hw] at h
      exact canonical_eq_of_key hv hw
        ((compareParsed_eq_zero (parse_some hv).1.prerelease (parse_some hw).1.prerelease).1 h)

theorem compare_le_trans {u v w : String} (h1 : Compare u v ≤ 0) (h2 : Compare v w ≤ 0) :
    Compare u w ≤ 0 := by
  cases hu : parse u.data with
  | none => rcases compare_invalid_left hu w with h | h <;> omega
  | some pu =>
    cases hv : parse v.data with
    | none => rw [compare_valid_invalid hu hv] at h1; omega
    | some pv =>
      cases hw : parse w.data with
      | none => rw [compare_valid_invalid hv hw] at h2; omega
      | some pw =>
        rw [compare_valid hu hv] at h1
        rw [compare_valid hv hw] at h2
        rw [compare_valid hu hw]
        exact compareParsed_le_trans (parse_some hu).1.prerelease (parse_some hv).1.prerelease
          (parse_some hw).1.prerelease h1 h2

theorem takeWhile_stop {α : Type} (q : α → Bool) (l s : List α) (hl : ∀ a ∈ l, q a = true)
    (hs : ∀ c, s.head? = some c → q c = false) :
    (l ++ s).takeWhile q = l ∧ (l ++ s).dropWhile q = s := by
  rw [List.takeWhile_append_of_pos hl, List.dropWhile_append_of_pos hl]
  cases s with
  | nil => simp
  | cons c cs =>
    have := hs c rfl
    simp [List.takeWhile_cons, List.dropWhile_cons, this]

theorem parseInt_numeral {t rest : List Char} (ht : isNumeral t) (hr : noDigitAhead rest) :
    parseInt (t ++ rest) = some (t, rest) := by
  obtain ⟨h0, hd, hz⟩ := ht
  cases t with
  | nil => exact absurd rfl h0
  | cons c cs =>
    simp only [List.all_cons, Bool.and_eq_true] at hd
    have hcs : ∀ a ∈ cs, isDigit a = true := by
      have := hd.2
      rw [List.all_eq_true] at this
      exact this
    have hs := takeWhile_stop isDigit cs rest hcs hr
    simp only [List.cons_append, parseInt, hd.1, Bool.not_true, Bool.false_eq_true, if_false,
      hs.1, hs.2]
    have hlead : ¬ (c.toNat = 48 ∧ (c :: cs).length ≠ 1) := by
      rintro ⟨e, hl⟩
      have hc' : c = Char.ofNat 48 := char_eq_of_toNat_eq (by rw [e]; rfl)
      exact hl (hz (by simp [hc']))
    simp only [hlead, if_false]

theorem parsePrerelease_append {t s : List Char} (ht : parsePrerelease t = some (t, []))
    (hs : buildAhead s) : parsePrerelease (t ++ s) = some (t, s) := by
  cases t with
  | nil => simp [parsePrerelease] at ht
  | cons c cs =>
    simp only [parsePrerelease] at ht
    split_ifs at ht with h1 h2
    simp only [Option.some.injEq, Prod.mk.injEq, List.cons.injEq, true_and] at ht
    obtain ⟨hb, hdrop⟩ := ht
    rw [List.dropWhile_eq_nil_iff] at hdrop
    have hstop : ∀ d, s.head? = some d → (fun d : Char => decide (d.toNat ≠ 43)) d = false := by
      intro d hd
      rcases hs with hs | hs
      · rw [hs] at hd; cases hd
      · rw [hs] at hd
        simp only [Option.some.injEq] at hd
        subst hd
        decide
    have hk := takeWhile_stop (fun d : Char => decide (d.toNat ≠ 43)) cs s hdrop hstop
    rw [hb] at h2
    simp only [List.cons_append, parsePrerelease, h1, if_false, hk.1, hk.2, h2, if_true]

theorem parseBuild_head {b rest : List Char} (h : parseBuild b = some (b, rest)) :
    b.head? = some (Char.ofNat 43) := by
  cases b with
  | nil => simp [parseBuild] at h
  | cons c cs =>
    simp only [parseBuild] at h
    split_ifs at h with h1 h2
    have : c.toNat = 43 := by simpa using h1
    have hc : c = Char.ofNat 43 := char_eq_of_toNat_eq (by rw [this]; rfl)
    simp [hc]

theorem parseTail_build {pre build : List Char} (hpre : wfPrerelease pre)
    (hp : pre = [] ∨ parsePrerelease pre = some (pre, []))
    (hb : build = [] ∨ parseBuild build = some (build, [])) :
    parseTail (pre ++ build) = some (pre, build) := by
  have hahead : buildAhead build := by
    rcases hb with hb | hb
    · exact Or.inl hb
    · exact Or.inr (parseBuild_head hb)
  have step2 : (match (if build.head? = some (Char.ofNat 43) then parseBuild build
        else some ([], build)) with
      | none => none
      | some (b, v2) => if v2 = [] then some (pre, b) else none) = some (pre, build) := by
    rcases hb with hb | hb
    · subst hb; simp
    · simp [parseBuild_head hb, hb]
  unfold parseTail
  by_cases h0 : pre = []
  · subst h0
    have hh : ¬ build.head? = some (Char.ofNat 45) := by
      rcases hahead with h | h
      · rw [h]; simp
      · rw [h]; decide
    simp only [List.nil_append, hh, if_false]
    exact step2
  · have h1 : parsePrerelease pre = some (pre, []) := by
      rcases hp with hp | hp
      · exact absurd hp h0
      · exact hp
    have hhead : (pre ++ build).head? = some (Char.ofNat 45) := by
      rcases hpre with h | h
      · exact absurd h h0
      · cases pre with
        | nil => exact absurd rfl h0
        | cons c cs => simpa using h
    simp only [hhead, if_true, parsePrerelease_append h1 hahead]
    exact step2

theorem noDigitAhead_dot (l : List Char) : noDigitAhead (Char.ofNat 46 :: l) := by
  intro c hc
  simp only [List.head?_cons, Option.some.injEq] at hc
  subst hc
  decide

theorem noDigitAhead_tail {pre build : List Char} (hpre : wfPrerelease pre)
    (hb : buildAhead build) : noDigitAhead (pre ++ build) := by
  intro c hc
  cases pre with
  | nil =>
    rcases hb with hb | hb
    · rw [hb] at hc; cases hc
    · simp only [List.nil_append] at hc
      rw [hb] at hc
      simp only [Option.some.injEq] at hc
      subst hc
      decide
  | cons a as =>
    rcases hpre with h | h
    · cases h
    · simp only [List.cons_append, List.head?_cons, Option.some.injEq] at hc h
      subst hc
      rw [h]
      decide

/-- Parsing the canonical text of a parsed version, with build metadata after
it, gives the fields back. -/
theorem parse_canonical_build {p : parsed} (h : p.WF) (build : List Char)
    (hb : build = [] ∨ parseBuild build = some (build, [])) :
    parse (p.canonical ++ build) = some ⟨p.major, p.minor, p.patch, [], p.prerelease, build⟩ := by
  have hahead : buildAhead build := by
    rcases hb with hb | hb
    · exact Or.inl hb
    · exact Or.inr (parseBuild_head hb)
  have e1 : p.canonical ++ build = Char.ofNat 118 ::
      (p.major ++ Char.ofNat 46 :: (p.minor ++ Char.ofNat 46 ::
        (p.patch ++ (p.prerelease ++ build)))) := by
    simp [parsed.canonical]
  have hv : ¬ (Char.ofNat 118).toNat ≠ 118 := by decide
  have hd : ¬ (Char.ofNat 46).toNat ≠ 46 := by decide
  rw [e1]
  simp only [parse, hv, if_false, parseInt_numeral h.major (noDigitAhead_dot _), hd,
    parseInt_numeral h.minor (noDigitAhead_dot _),
    parseInt_numeral h.patch (noDigitAhead_tail h.prerelease hahead),
    parseTail_build h.prerelease h.prereleaseOK hb]

theorem parse_canonical {v : String} {p : parsed} (h : parse v.data = some p) :
    parse (Canonical v).data = some ⟨p.major, p.minor, p.patch, [], p.prerelease, []⟩ := by
  rw [canonical_data h]
  have := parse_canonical_build (parse_some h).1 [] (Or.inl rfl)
  simpa using this

theorem parse_canonical_invalid {v : String} (h : parse v.data = none) :
    parse (Canonical v).data = none := by
  rw [canonical_invalid h]
  rfl

/-- Canonicalizing the right operand does not change the comparison. -/
theorem compare_canonical_right (v w : String) : Compare v (Canonical w) = Compare v w := by
  cases hw : parse w.data with
  | none =>
    have := parse_canonical_invalid hw
    unfold Compare
    rw [this, hw]
  | some pw =>
    have := parse_canonical hw
    unfold Compare
    rw [this, hw]
    cases parse v.data <;> rfl

theorem canonical_eq_iff_compare_zero (v w : String) :
    Compare v w = 0 ↔ Canonical v = Canonical w := by
  constructor
  · exact canonical_eq_of_compare_zero
  · intro h
    have h1 : Compare (Canonical v) (Canonical w) = 0 := by rw [h]; exact compare_self _
    rw [compare_canonical_right, compare_anti, compare_canonical_right, compare_anti] at h1
    simpa using h1

theorem canonical_idem (v : String) : Canonical (Canonical v) = Canonical v := by
  have := compare_canonical_right (Canonical v) v
  rw [compare_anti] at this
  have h2 : Compare v (Canonical v) = 0 := by rw [compare_canonical_right]; exact compare_self v
  exact ((canonical_eq_iff_compare_zero v (Canonical v)).1 h2).symm

/-- On valid versions `Compare` compares the numbers major, minor and patch in
turn, and the pre-releases when the three are equal. -/
theorem compare_numeric {v w : String} {pv pw : parsed} (hv : parse v.data = some pv)
    (hw : parse w.data = some pw) :
    Compare v w =
      lexStep (compareNat (decimalValue pv.major) (decimalValue pw.major))
        (lexStep (compareNat (decimalValue pv.minor) (decimalValue pw.minor))
          (lexStep (compareNat (decimalValue pv.patch) (decimalValue pw.patch))
            (comparePrerelease pv.prerelease pw.prerelease))) := by
  have hpv := (parse_some hv).1
  have hpw := (parse_some hw).1
  rw [compare_valid hv hw, compareParsed, compareInt_numeric hpv.major hpw.major,
    compareInt_numeric hpv.minor hpw.minor, compareInt_numeric hpv.patch hpw.patch]

theorem comparePrerelease_release (x : List Char) (hx : x ≠ []) :
    comparePrerelease x [] = -1 ∧ comparePrerelease [] x = 1 := by
  have hx' : ¬ [] = x := fun e => hx e.symm
  simp [comparePrerelease, hx, hx']

/-- A version with a pre-release is below the version with the same numbers
and no pre-release. -/
theorem compare_release_prerelease {m c : String} {pm pc : parsed}
    (hm : parse m.data = some pm) (hc : parse c.data = some pc)
    (hmajor : pc.major = pm.major) (hminor : pc.minor = pm.minor) (hpatch : pc.patch = pm.patch)
    (hrel : pm.prerelease = []) (hpre : pc.prerelease ≠ []) : Compare m c = 1 := by
  rw [compare_valid hm hc, compareParsed, hmajor, hminor, hpatch, hrel, compareInt_self,
    compareInt_self, compareInt_self, (comparePrerelease_release _ hpre).2]
  rfl

/-- Build metadata after a canonical version does not change its canonical form. -/
theorem canonical_append_build {c build : String} (hvalid : IsValid c = true)
    (hcanon : Canonical c = c) (hbuild : parseBuild build.data = some (build.data, [])) :
    IsValid (c ++ build) = true ∧ Canonical (c ++ build) = c := by
  unfold IsValid at hvalid
  obtain ⟨p, hp⟩ := Option.isSome_iff_exists.1 hvalid
  have hdata : c.data = p.canonical := by rw [← canonical_data hp, hcanon]
  have hparse := parse_canonical_build (parse_some hp).1 build.data (Or.inr hbuild)
  rw [← hdata] at hparse
  have hparse' : parse (c ++ build).data = some ⟨p.major, p.minor, p.patch, [], p.prerelease,
      build.data⟩ := by
    rw [String.data_append]; exact hparse
  refine ⟨by unfold IsValid; rw [hparse']; rfl, ?_⟩
  apply String.ext
  rw [canonical_data hparse', hdata]
  rfl

end semver

/-! ## Properties of the gate -/

theorem isPlain_of_versionChar {c : Char} (h : semver.isVersionChar c = true) :
    strconv.isPlain c = true := by
  simp only [semver.isVersionChar, semver.isIdentChar, semver.isDigit, Bool.or_eq_true,
    Bool.and_eq_true, decide_eq_true_eq] at h
  simp only [strconv.isPlain, Bool.and_eq_true, decide_eq_true_eq]
  omega

theorem all_plain_of_versionChar {l : List Char} (h : l.all semver.isVersionChar = true) :
    l.all strconv.isPlain = true := by
  rw [List.all_eq_true] at h ⊢
  exact fun c hc => isPlain_of_versionChar (h c hc)

theorem quote_plain (esc : Char → List Char) (s : String)
    (h : s.data.all strconv.isPlain = true) :
    strconv.Quote esc s = Char.ofNat 34 :: s.data ++ [Char.ofNat 34] := by
  unfold strconv.Quote
  have key : ∀ l : List Char, l.all strconv.isPlain = true →
      l.flatMap (fun c => if c.toNat = 34 ∨ c.toNat = 92 then [Char.ofNat 92, c]
        else if strconv.isPlain c then [c] else esc c) = l := by
    intro l
    induction l with
    | nil => intro _; rfl
    | cons c cs ih =>
      intro hl
      simp only [List.all_cons, Bool.and_eq_true] at hl
      have hc := hl.1
      have hc' := hc
      simp only [strconv.isPlain, Bool.and_eq_true, decide_eq_true_eq] at hc'
      have h1 : ¬ (c.toNat = 34 ∨ c.toNat = 92) := by omega
      simp only [List.flatMap_cons, h1, if_false, hc, if_true, ih hl.2]
      rfl
  rw [key s.data h]

theorem sprintf_tooLow (esc : Char → List Char) (a b c : String) :
    fmt.sprintf esc tooLowFormat.data [a, b, c] =
      "kubernetes version ".data ++ strconv.Quote esc a ++
      " is not compatible, need at least ".data ++ strconv.Quote esc b ++
      " (this can be overridden with the env var ".data ++ strconv.Quote esc c ++ ")".data := by
  simp [tooLowFormat, fmt.sprintf]

/-- The message of the version-too-low error when its operands need no escaping. -/
theorem tooLowError_message {ε : Type} (esc : Char → List Char) (msg : ε → String)
    (current minimum : String) (hc : current.data.all strconv.isPlain = true)
    (hm : minimum.data.all strconv.isPlain = true) :
    (tooLowError ε current minimum).Error esc msg = tooLowText current minimum := by
  apply String.ext
  have hk : KubernetesMinVersionKey.data.all strconv.isPlain = true := by decide
  simp only [tooLowError, error.Error, fmt.Sprintf, sprintf_tooLow, quote_plain esc _ hc,
    quote_plain esc _ hm, quote_plain esc _ hk, tooLowText, String.data_append]
  simp [KubernetesMinVersionKey]

theorem tooLowText_data (current minimum : String) :
    (tooLowText current minimum).data =
      "kubernetes version \"".data ++ (current.data ++
        ("\" is not compatible, need at least \"".data ++ (minimum.data ++
          ("\" (this can be overridden with the env var \"".data ++
            (KubernetesMinVersionKey.data ++ "\")".data))))) := by
  simp only [tooLowText, String.data_append, List.append_assoc]
  rfl

theorem tooLowText_mentions (current minimum : String) :
    current.data <:+: (tooLowText current minimum).data ∧
    minimum.data <:+: (tooLowText current minimum).data ∧
    KubernetesMinVersionKey.data <:+: (tooLowText current minimum).data := by
  rw [tooLowText_data]
  refine ⟨List.infix_append' _ _ _, ⟨"kubernetes version \"".data ++ current.data ++
      "\" is not compatible, need at least \"".data,
      "\" (this can be overridden with the env var \"".data ++
        (KubernetesMinVersionKey.data ++ "\")".data), by simp only [List.append_assoc]⟩,
    ⟨"kubernetes version \"".data ++ current.data ++
      "\" is not compatible, need at least \"".data ++ minimum.data ++
      "\" (this can be overridden with the env var \"".data, "\")".data,
      by simp only [List.append_assoc]⟩⟩

theorem canonical_plain (v : String) : (semver.Canonical v).data.all strconv.isPlain = true := by
  cases h : semver.parse v.data with
  | none => rw [semver.canonical_invalid h]; rfl
  | some p =>
    rw [semver.canonical_data h]
    exact all_plain_of_versionChar (semver.canonical_chars (semver.parse_some h).1)

theorem valid_plain {v : String} {p : semver.parsed} (h : semver.parse v.data = some p) :
    v.data.all strconv.isPlain = true :=
  all_plain_of_versionChar (semver.valid_chars h)

/-- A minimum that compares above some version is a valid version. -/
theorem valid_of_compare_one {m c : String} (h : semver.Compare m c = 1) :
    ∃ p, semver.parse m.data = some p := by
  cases hm : semver.parse m.data with
  | none => rcases semver.compare_invalid_left hm c with h1 | h1 <;> omega
  | some p => exact ⟨p, rfl⟩

theorem getMinimumVersion_eq {σ : Type} (w : World σ) :
    getMinimumVersion w = specMinimum (w.environ KubernetesMinVersionKey) := by
  unfold getMinimumVersion os.Getenv specMinimum
  cases h : w.environ KubernetesMinVersionKey with
  | none => simp [defaultMinimumVersion]
  | some o =>
    by_cases ho : o = ""
    · simp [ho, defaultMinimumVersion]
    · simp [ho]

/-- The path of `CheckMinimumVersion` after a successful retrieval. -/
theorem check_retrieved {σ ε : Type} (versioner : ServerVersioner σ ε) (w w1 : World σ) (v : Info)
    (hcall : versioner.ServerVersion w = ((some v, none), w1)) :
    CheckMinimumVersion versioner w =
      (if semver.Compare (getMinimumVersion w1) (semver.Canonical v.String) = 1 then
          Outcome.returned (some (tooLowError ε (semver.Canonical v.String) (getMinimumVersion w1)))
        else Outcome.returned none, w1) := by
  unfold CheckMinimumVersion
  rw [hcall]
  simp only [tooLowError]
  split <;> rfl

/-- The path of `CheckMinimumVersion` after a failed retrieval. -/
theorem check_failed {σ ε : Type} (versioner : ServerVersioner σ ε) (w w1 : World σ)
    (v : Option Info) (e : error ε) (hcall : versioner.ServerVersion w = ((v, some e), w1)) :
    CheckMinimumVersion versioner w = (Outcome.returned (some e), w1) := by
  unfold CheckMinimumVersion
  rw [hcall]

theorem check_world {σ ε : Type} (versioner : ServerVersioner σ ε) (w : World σ) :
    (CheckMinimumVersion versioner w).2 = (versioner.ServerVersion w).2 := by
  unfold CheckMinimumVersion
  simp only
  split
  · rfl
  · split
    · rfl
    · split <;> rfl

/-- The path of `CheckMinimumVersion` after a retrieval that returned neither
a descriptor nor an error. -/
theorem check_panicked {σ ε : Type} (versioner : ServerVersioner σ ε) (w w1 : World σ)
    (hcall : versioner.ServerVersion w = ((none, none), w1)) :
    CheckMinimumVersion versioner w = (Outcome.panicked, w1) := by
  unfold CheckMinimumVersion
  rw [hcall]

/-! ## The claims -/

/-- C1: when the retrieval succeeds with a version that is not below the
resolved minimum, that is `semver.Compare minimum (Canonical current)` is not
`1`, `CheckMinimumVersion` returns nil. -/
theorem C1_returns_nil_when_current_at_least_minimum {σ ε : Type}
    (versioner : ServerVersioner σ ε) (w w1 : World σ) (v : Info)
    (hcall : versioner.ServerVersion w = ((some v, none), w1))
    (hge : semver.Compare (getMinimumVersion w1) (semver.Canonical v.String) ≠ 1) :
    (CheckMinimumVersion versioner w).1 = Outcome.returned none := by
  rw [check_retrieved versioner w w1 v hcall]
  simp [hge]

/-- C1, witness: minimum `v1.15.0` (the default), current `v1.16.2`: success. -/
theorem C1_witness_v1_16_2 :
    getMinimumVersion (worldWith none) = "v1.15.0" ∧
    semver.Compare "v1.15.0" (semver.Canonical "v1.16.2") = -1 ∧
    (CheckMinimumVersion (fixedVersioner "v1.16.2") (worldWith none)).1 = Outcome.returned none :=
  ⟨by decide, by decide,
    C1_returns_nil_when_current_at_least_minimum (fixedVersioner "v1.16.2") (worldWith none)
      (worldWith none) (infoOf "v1.16.2") rfl (by decide)⟩

/-- C2, as stated, fails: the current version `v1.10.0+build` is below the
minimum `v1.15.0`, and the error names `v1.10.0`; its message does not contain
the string `v1.10.0+build` that the versioner reported. -/
theorem C2_counterexample_build_metadata :
    semver.IsValid "v1.10.0+build" = true ∧
    semver.Compare "v1.15.0" (semver.Canonical "v1.10.0+build") = 1 ∧
    (CheckMinimumVersion (fixedVersioner "v1.10.0+build") (worldWith none)).1 =
      Outcome.returned (some (tooLowError String "v1.10.0" "v1.15.0")) ∧
    ∀ (esc : Char → List Char) (msg : String → String),
      (tooLowError String "v1.10.0" "v1.15.0").Error esc msg =
        "kubernetes version \"v1.10.0\" is not compatible, need at least \"v1.15.0\" (this can be overridden with the env var \"KUBERNETES_MIN_VERSION\")" ∧
      ¬ ("v1.10.0+build".data <:+: ((tooLowError String "v1.10.0" "v1.15.0").Error esc msg).data) := by
  refine ⟨by decide, by decide, by decide, fun esc msg => ?_⟩
  have h : (tooLowError String "v1.10.0" "v1.15.0").Error esc msg =
      tooLowText "v1.10.0" "v1.15.0" :=
    tooLowError_message esc msg "v1.10.0" "v1.15.0" (by decide) (by decide)
  rw [h]
  exact ⟨by decide, by decide⟩

/-- C2 (amended): when the retrieval succeeds with a version below the
resolved minimum, `CheckMinimumVersion` returns an error whose message
contains the canonical form of the current version, the minimum version as it
was resolved, and the override key `KUBERNETES_MIN_VERSION`. -/
theorem C2_too_low_error_names_canonical_current_and_minimum {σ ε : Type}
    (versioner : ServerVersioner σ ε) (w w1 : World σ) (v : Info)
    (hcall : versioner.ServerVersion w = ((some v, none), w1))
    (hlt : semver.Compare (getMinimumVersion w1) (semver.Canonical v.String) = 1) :
    ∃ err : error ε, (CheckMinimumVersion versioner w).1 = Outcome.returned (some err) ∧
      ∀ (esc : Char → List Char) (msg : ε → String),
        err.Error esc msg = tooLowText (semver.Canonical v.String) (getMinimumVersion w1) ∧
        (semver.Canonical v.String).data <:+: (err.Error esc msg).data ∧
        (getMinimumVersion w1).data <:+: (err.Error esc msg).data ∧
        KubernetesMinVersionKey.data <:+: (err.Error esc msg).data := by
  refine ⟨tooLowError ε (semver.Canonical v.String) (getMinimumVersion w1), ?_, ?_⟩
  · rw [check_retrieved versioner w w1 v hcall]
    simp [hlt]
  · intro esc msg
    obtain ⟨p, hp⟩ := valid_of_compare_one hlt
    have h := tooLowError_message esc msg (semver.Canonical v.String) (getMinimumVersion w1)
      (canonical_plain _) (valid_plain hp)
    rw [h]
    exact ⟨rfl, tooLowText_mentions _ _⟩

/-- C2, witness: minimum `v1.15.0`, current `v1.10.0`: the message mentions
`v1.10.0`, `v1.15.0` and the override key. -/
theorem C2_witness_v1_10_0 :
    ∃ err : error String,
      (CheckMinimumVersion (fixedVersioner "v1.10.0") (worldWith none)).1 =
        Outcome.returned (some err) ∧
      ∀ (esc : Char → List Char) (msg : String → String),
        err.Error esc msg = tooLowText "v1.10.0" "v1.15.0" ∧
        "v1.10.0".data <:+: (err.Error esc msg).data ∧
        "v1.15.0".data <:+: (err.Error esc msg).data ∧
        "KUBERNETES_MIN_VERSION".data <:+: (err.Error esc msg).data :=
  C2_too_low_error_names_canonical_current_and_minimum (fixedVersioner "v1.10.0")
    (worldWith none) (worldWith none) (infoOf "v1.10.0") rfl (by decide)

/-- C3: when `ServerVersion` returns an error, `CheckMinimumVersion` returns
that same error value, whatever the environment holds and whatever descriptor
came with the error. -/
theorem C3_retrieval_error_returned_unchanged {σ ε : Type} (versioner : ServerVersioner σ ε)
    (w w1 : World σ) (v : Option Info) (e : error ε)
    (hcall : versioner.ServerVersion w = ((v, some e), w1)) :
    (CheckMinimumVersion versioner w).1 = Outcome.returned (some e) := by
  rw [check_failed versioner w w1 v e hcall]

/-- C3, witness: a failing versioner, with an override that no version could
meet. -/
theorem C3_witness_failing_versioner :
    (CheckMinimumVersion (failingVersioner "connection refused")
      (worldWith (some "v99.0.0"))).1 =
      Outcome.returned (some (error.foreign "connection refused")) :=
  C3_retrieval_error_returned_unchanged (failingVersioner "connection refused")
    (worldWith (some "v99.0.0")) (worldWith (some "v99.0.0")) none
    (error.foreign "connection refused") rfl

/-- C4: the minimum that `CheckMinimumVersion` compares against and prints is
the value of `KUBERNETES_MIN_VERSION`, verbatim, when it is set and not empty,
and `v1.15.0` when it is unset or empty. -/
theorem C4_minimum_is_override_or_default {σ ε : Type} (versioner : ServerVersioner σ ε)
    (w w1 : World σ) (v : Info)
    (hcall : versioner.ServerVersion w = ((some v, none), w1)) :
    getMinimumVersion w1 = specMinimum (w1.environ KubernetesMinVersionKey) ∧
    (CheckMinimumVersion versioner w).1 =
      (if semver.Compare (specMinimum (w1.environ KubernetesMinVersionKey))
          (semver.Canonical v.String) = 1 then
        Outcome.returned (some (tooLowError ε (semver.Canonical v.String)
          (specMinimum (w1.environ KubernetesMinVersionKey))))
      else Outcome.returned none) ∧
    (semver.Compare (specMinimum (w1.environ KubernetesMinVersionKey))
        (semver.Canonical v.String) = 1 →
      ∀ (esc : Char → List Char) (msg : ε → String),
        (specMinimum (w1.environ KubernetesMinVersionKey)).data <:+:
          ((tooLowError ε (semver.Canonical v.String)
            (specMinimum (w1.environ KubernetesMinVersionKey))).Error esc msg).data) := by
  have hmin := getMinimumVersion_eq w1
  refine ⟨hmin, ?_, ?_⟩
  · rw [check_retrieved versioner w w1 v hcall, hmin]
  · intro hlt esc msg
    obtain ⟨p, hp⟩ := valid_of_compare_one hlt
    rw [tooLowError_message esc msg _ _ (canonical_plain _) (valid_plain hp)]
    exact (tooLowText_mentions _ _).2.1

/-- C4, witness: override `v1.20.0`, current `v1.18.0`: a failure that
mentions `v1.20.0`. -/
theorem C4_witness_override_v1_20_0 :
    specMinimum ((worldWith (some "v1.20.0")).environ KubernetesMinVersionKey) = "v1.20.0" ∧
    (CheckMinimumVersion (fixedVersioner "v1.18.0") (worldWith (some "v1.20.0"))).1 =
      Outcome.returned (some (tooLowError String "v1.18.0" "v1.20.0")) ∧
    ∀ (esc : Char → List Char) (msg : String → String),
      "v1.20.0".data <:+: ((tooLowError String "v1.18.0" "v1.20.0").Error esc msg).data := by
  have h := C4_minimum_is_override_or_default (fixedVersioner "v1.18.0")
    (worldWith (some "v1.20.0")) (worldWith (some "v1.20.0")) (infoOf "v1.18.0") rfl
  exact ⟨by decide, by decide, h.2.2 (by decide)⟩

/-- C5: the comparison of the gate is the semantic version ordering: major,
minor and patch are compared as numbers, the pre-releases decide only when
the three are equal, and a pre-release is below the release; so a current
version that is a pre-release of a minimum without a pre-release is rejected,
and build metadata on the current version does not change the outcome. -/
theorem C5_semantic_version_ordering :
    (∀ (v w : String) (pv pw : semver.parsed), semver.parse v.data = some pv →
      semver.parse w.data = some pw →
      semver.Compare v w =
        semver.lexStep (semver.compareNat (semver.decimalValue pv.major) (semver.decimalValue pw.major))
          (semver.lexStep (semver.compareNat (semver.decimalValue pv.minor) (semver.decimalValue pw.minor))
            (semver.lexStep (semver.compareNat (semver.decimalValue pv.patch) (semver.decimalValue pw.patch))
              (semver.comparePrerelease pv.prerelease pw.prerelease)))) ∧
    (∀ x : List Char, x ≠ [] →
      semver.comparePrerelease x [] = -1 ∧ semver.comparePrerelease [] x = 1) ∧
    semver.Compare "v1.9.0" "v1.10.0" = -1 ∧
    (∀ {σ ε : Type} (versioner : ServerVersioner σ ε) (w w1 : World σ) (v : Info)
      (pm pc : semver.parsed),
      versioner.ServerVersion w = ((some v, none), w1) →
      semver.parse (getMinimumVersion w1).data = some pm →
      semver.parse v.String.data = some pc →
      pc.major = pm.major → pc.minor = pm.minor → pc.patch = pm.patch →
      pm.prerelease = [] → pc.prerelease ≠ [] →
      (CheckMinimumVersion versioner w).1 = Outcome.returned (some
        (tooLowError ε (semver.Canonical v.String) (getMinimumVersion w1)))) ∧
    (∀ {σ τ ε : Type} (versioner : ServerVersioner σ ε) (versioner1 : ServerVersioner τ ε)
      (w w1 : World σ) (u u1 : World τ) (v v1 : Info) (pc pc1 : semver.parsed),
      versioner.ServerVersion w = ((some v, none), w1) →
      versioner1.ServerVersion u = ((some v1, none), u1) →
      getMinimumVersion w1 = getMinimumVersion u1 →
      semver.parse v.String.data = some pc → semver.parse v1.String.data = some pc1 →
      pc.major = pc1.major → pc.minor = pc1.minor → pc.patch = pc1.patch →
      pc.prerelease = pc1.prerelease →
      (CheckMinimumVersion versioner w).1 = (CheckMinimumVersion versioner1 u).1) ∧
    (∀ (c build : String), semver.IsValid c = true → semver.Canonical c = c →
      semver.parseBuild build.data = some (build.data, []) →
      semver.IsValid (c ++ build) = true ∧ semver.Canonical (c ++ build) = semver.Canonical c) := by
  refine ⟨fun v w pv pw hv hw => semver.compare_numeric hv hw,
    semver.comparePrerelease_release, by decide, ?_, ?_, ?_⟩
  · intro σ ε versioner w w1 v pm pc hcall hm hc h1 h2 h3 h4 h5
    rw [check_retrieved versioner w w1 v hcall, semver.compare_canonical_right,
      semver.compare_release_prerelease hm hc h1 h2 h3 h4 h5]
    rfl
  · intro σ τ ε versioner versioner1 w w1 u u1 v v1 pc pc1 hcall hcall1 hmin hc hc1 h1 h2 h3 h4
    have hk : pc.key = pc1.key := by simp [semver.parsed.key, h1, h2, h3, h4]
    rw [check_retrieved versioner w w1 v hcall, check_retrieved versioner1 u u1 v1 hcall1,
      semver.canonical_eq_of_key hc hc1 hk, hmin]
  · intro c build hv hc hb
    have := semver.canonical_append_build hv hc hb
    exact ⟨this.1, by rw [this.2, hc]⟩

/-- C5, witness: `v1.9.0` is below `v1.10.0`; against the minimum `v1.15.0`
the current version `v1.15.0-gke.1` is rejected, and `v1.15.0+build` gives
the outcome of `v1.15.0`. -/
theorem C5_witness_gke_and_build :
    semver.Compare "v1.9.0" "v1.10.0" = -1 ∧
    (CheckMinimumVersion (fixedVersioner "v1.15.0-gke.1") (worldWith none)).1 =
      Outcome.returned (some (tooLowError String "v1.15.0-gke.1" "v1.15.0")) ∧
    (CheckMinimumVersion (fixedVersioner "v1.15.0+build") (worldWith none)).1 =
      (CheckMinimumVersion (fixedVersioner "v1.15.0") (worldWith none)).1 ∧
    semver.Canonical ("v1.15.0" ++ "+build") = semver.Canonical "v1.15.0" := by
  have h := C5_semantic_version_ordering
  refine ⟨h.2.2.1, ?_, ?_, ?_⟩
  · exact h.2.2.2.1 (fixedVersioner "v1.15.0-gke.1") (worldWith none) (worldWith none)
      (infoOf "v1.15.0-gke.1") ⟨"1".data, "15".data, "0".data, [], [], []⟩
      ⟨"1".data, "15".data, "0".data, [], "-gke.1".data, []⟩ rfl (by decide) (by decide)
      rfl rfl rfl rfl (by decide)
  · exact h.2.2.2.2.1 (fixedVersioner "v1.15.0+build") (fixedVersioner "v1.15.0")
      (worldWith none) (worldWith none) (worldWith none) (worldWith none)
      (infoOf "v1.15.0+build") (infoOf "v1.15.0")
      ⟨"1".data, "15".data, "0".data, [], [], "+build".data⟩
      ⟨"1".data, "15".data, "0".data, [], [], []⟩ rfl rfl rfl (by decide) (by decide)
      rfl rfl rfl rfl
  · exact (h.2.2.2.2.2 "v1.15.0" "+build" (by decide) (by decide) (by decide)).2

/-- C6, as stated, fails: two valid versions that differ in build metadata
compare equal and are different strings. -/
theorem C6_counterexample_equal_but_different :
    semver.IsValid "v1.15.0+a" = true ∧ semver.IsValid "v1.15.0+b" = true ∧
    semver.Compare "v1.15.0+a" "v1.15.0+b" = 0 ∧ "v1.15.0+a" ≠ "v1.15.0+b" := by
  refine ⟨by decide, by decide, by decide, by decide⟩

/-- C6 (amended): `semver.Compare` is a total preorder on version strings, the
well formed ones in particular: its result is `-1`, `0` or `1`, swapping the
operands negates it, a version compares equal to itself, the comparison is
transitive, and two versions compare equal exactly when their canonical forms
are the same string. -/
theorem C6_compare_total_preorder_up_to_canonical (a b c : String) :
    (semver.Compare a b = -1 ∨ semver.Compare a b = 0 ∨ semver.Compare a b = 1) ∧
    semver.Compare a b = - semver.Compare b a ∧
    semver.Compare a a = 0 ∧
    (semver.Compare a b = 0 ↔ semver.Canonical a = semver.Canonical b) ∧
    (semver.Compare a b ≤ 0 → semver.Compare b c ≤ 0 → semver.Compare a c ≤ 0) := by
  refine ⟨?_, semver.compare_anti a b, semver.compare_self a,
    semver.canonical_eq_iff_compare_zero a b, semver.compare_le_trans⟩
  rcases semver.compare_cases a b with h | h | h
  · exact Or.inr (Or.inl h)
  · exact Or.inl h
  · exact Or.inr (Or.inr h)

/-- C6, witness: `v1.9.0`, `v1.10.0` and `v1.10.0+build`. -/
theorem C6_witness_three_versions :
    semver.Compare "v1.9.0" "v1.10.0" = - semver.Compare "v1.10.0" "v1.9.0" ∧
    (semver.Compare "v1.10.0" "v1.10.0+build" = 0 ↔
      semver.Canonical "v1.10.0" = semver.Canonical "v1.10.0+build") ∧
    semver.Compare "v1.9.0" "v1.10.0+build" ≤ 0 :=
  ⟨(C6_compare_total_preorder_up_to_canonical "v1.9.0" "v1.10.0" "v1.10.0+build").2.1,
    (C6_compare_total_preorder_up_to_canonical "v1.10.0" "v1.10.0+build" "v1.9.0").2.2.2.1,
    (C6_compare_total_preorder_up_to_canonical "v1.9.0" "v1.10.0" "v1.10.0+build").2.2.2.2
      (by decide) (by decide)⟩

/-- C7: the default minimum `v1.15.0` is a valid semantic version in canonical
form, and with the override unset the gate rejects some retrieved versions
(`v1.14.9`) and accepts others (`v1.15.0`). -/
theorem C7_default_minimum_is_valid :
    defaultMinimumVersion = "v1.15.0" ∧
    semver.IsValid defaultMinimumVersion = true ∧
    semver.Canonical defaultMinimumVersion = defaultMinimumVersion ∧
    (∀ {σ : Type} (w : World σ), w.environ KubernetesMinVersionKey = none →
      getMinimumVersion w = defaultMinimumVersion) ∧
    (CheckMinimumVersion (fixedVersioner "v1.14.9") (worldWith none)).1 =
      Outcome.returned (some (tooLowError String "v1.14.9" "v1.15.0")) ∧
    (CheckMinimumVersion (fixedVersioner "v1.15.0") (worldWith none)).1 =
      Outcome.returned none := by
  refine ⟨rfl, by decide, by decide, ?_, by decide, by decide⟩
  intro σ w hw
  rw [getMinimumVersion_eq, hw]
  rfl

/-- C8: `CheckMinimumVersion` leaves the world as its one call of
`ServerVersion` left it (one call, no write to the environment); what it
returns is nil, the error of the retrieval, or the version-too-low error; and
its result is a function of the outcome of that call and of the value of
`KUBERNETES_MIN_VERSION`: two invocations that agree on both return the same
result. -/
theorem C8_result_depends_on_retrieval_and_override {σ τ ε : Type}
    (versioner : ServerVersioner σ ε) (versioner1 : ServerVersioner τ ε)
    (w : World σ) (u : World τ) :
    (CheckMinimumVersion versioner w).2 = (versioner.ServerVersion w).2 ∧
    ((∃ e, (versioner.ServerVersion w).1.2 = some e ∧
        (CheckMinimumVersion versioner w).1 = Outcome.returned (some e)) ∨
      ((versioner.ServerVersion w).1 = (none, none) ∧
        (CheckMinimumVersion versioner w).1 = Outcome.panicked) ∨
      (∃ v, (versioner.ServerVersion w).1 = (some v, none) ∧
        ((CheckMinimumVersion versioner w).1 = Outcome.returned none ∨
          (CheckMinimumVersion versioner w).1 = Outcome.returned (some
            (tooLowError ε (semver.Canonical v.String)
              (getMinimumVersion (versioner.ServerVersion w).2)))))) ∧
    ((versioner.ServerVersion w).1 = (versioner1.ServerVersion u).1 →
      os.Getenv (versioner.ServerVersion w).2 KubernetesMinVersionKey =
        os.Getenv (versioner1.ServerVersion u).2 KubernetesMinVersionKey →
      (CheckMinimumVersion versioner w).1 = (CheckMinimumVersion versioner1 u).1) := by
  refine ⟨check_world versioner w, ?_, ?_⟩
  · rcases hr : versioner.ServerVersion w with ⟨⟨v, e⟩, w1⟩
    cases e with
    | some e =>
      left
      exact ⟨e, rfl, by rw [check_failed versioner w w1 v e hr]⟩
    | none =>
      right
      cases v with
      | none =>
        left
        exact ⟨rfl, by rw [check_panicked versioner w w1 hr]⟩
      | some v =>
        right
        refine ⟨v, rfl, ?_⟩
        rw [check_retrieved versioner w w1 v hr]
        by_cases h : semver.Compare (getMinimumVersion w1) (semver.Canonical v.String) = 1
        · right; simp [h]
        · left; simp [h]
  · intro h1 h2
    rcases hr : versioner.ServerVersion w with ⟨⟨v, e⟩, w1⟩
    rcases hr1 : versioner1.ServerVersion u with ⟨⟨v1, e1⟩, u1⟩
    rw [hr, hr1] at h1 h2
    simp only [Prod.mk.injEq] at h1
    obtain ⟨hv, he⟩ := h1
    subst hv he
    cases e with
    | some e => rw [check_failed versioner w w1 v e hr, check_failed versioner1 u u1 v e hr1]
    | none =>
      cases v with
      | none => rw [check_panicked versioner w w1 hr, check_panicked versioner1 u u1 hr1]
      | some v =>
        have hmin : getMinimumVersion w1 = getMinimumVersion u1 := by
          unfold getMinimumVersion
          rw [h2]
        rw [check_retrieved versioner w w1 v hr, check_retrieved versioner1 u u1 v hr1, hmin]

/-- C8, witness: a versioner that counts its calls has been called once, the
environment is as before, and a second invocation returns the same result. -/
theorem C8_witness_counting_versioner :
    (CheckMinimumVersion (countingVersioner "v1.10.0") ⟨(worldWith none).environ, 0⟩).2.remote = 1 ∧
    (CheckMinimumVersion (countingVersioner "v1.10.0") ⟨(worldWith none).environ, 0⟩).2.environ =
      (worldWith none).environ ∧
    (CheckMinimumVersion (countingVersioner "v1.10.0") ⟨(worldWith none).environ, 0⟩).1 =
      (CheckMinimumVersion (countingVersioner "v1.10.0") ⟨(worldWith none).environ, 1⟩).1 := by
  have h := C8_result_depends_on_retrieval_and_override (countingVersioner "v1.10.0")
    (countingVersioner "v1.10.0") ⟨(worldWith none).environ, 0⟩ ⟨(worldWith none).environ, 1⟩
  refine ⟨?_, ?_, h.2.2 rfl rfl⟩
  · rw [h.1]; rfl
  · rw [h.1]; rfl

/-- C9: when the override is not empty and is not a valid semantic version,
`CheckMinimumVersion` returns nil for every version that is retrieved. -/
theorem C9_invalid_override_disables_gate {σ ε : Type} (versioner : ServerVersioner σ ε)
    (w w1 : World σ) (v : Info) (override : String)
    (hcall : versioner.ServerVersion w = ((some v, none), w1))
    (henv : w1.environ KubernetesMinVersionKey = some override)
    (hne : override ≠ "") (hbad : semver.IsValid override = false) :
    getMinimumVersion w1 = override ∧
    (CheckMinimumVersion versioner w).1 = Outcome.returned none := by
  have hmin : getMinimumVersion w1 = override := by
    rw [getMinimumVersion_eq, henv]
    simp [specMinimum, hne]
  refine ⟨hmin, ?_⟩
  rw [check_retrieved versioner w w1 v hcall, hmin]
  have hparse : semver.parse override.data = none := by
    unfold semver.IsValid at hbad
    cases h : semver.parse override.data with
    | none => rfl
    | some p => rw [h] at hbad; cases hbad
  have hcmp : semver.Compare override (semver.Canonical v.String) ≠ 1 := by
    rcases semver.compare_invalid_left hparse (semver.Canonical v.String) with h | h <;> omega
  simp [hcmp]

/-- C9, witness: the override `1.20.0`, without the leading `v`, and the
current version `v1.0.0`. -/
theorem C9_witness_override_without_v :
    semver.IsValid "1.20.0" = false ∧
    getMinimumVersion (worldWith (some "1.20.0")) = "1.20.0" ∧
    (CheckMinimumVersion (fixedVersioner "v1.0.0") (worldWith (some "1.20.0"))).1 =
      Outcome.returned none :=
  ⟨by decide,
    C9_invalid_override_disables_gate (fixedVersioner "v1.0.0") (worldWith (some "1.20.0"))
      (worldWith (some "1.20.0")) (infoOf "v1.0.0") "1.20.0" rfl rfl (by decide) (by decide)⟩

/-- C10: the version-too-low error always carries the canonical form of the
retrieved version; when the retrieved version is not a valid semantic version
and the resolved minimum is, the canonical form is empty, the
version-too-low error is returned, and its message names the current version
as `""`. -/
theorem C10_invalid_current_is_reported_as_empty {σ ε : Type} (versioner : ServerVersioner σ ε)
    (w w1 : World σ) (v : Info)
    (hcall : versioner.ServerVersion w = ((some v, none), w1)) :
    ((CheckMinimumVersion versioner w).1 = Outcome.returned none ∨
      (CheckMinimumVersion versioner w).1 = Outcome.returned (some
        (tooLowError ε (semver.Canonical v.String) (getMinimumVersion w1)))) ∧
    (semver.IsValid v.String = false → semver.IsValid (getMinimumVersion w1) = true →
      semver.Canonical v.String = "" ∧
      (CheckMinimumVersion versioner w).1 = Outcome.returned (some
        (tooLowError ε "" (getMinimumVersion w1))) ∧
      ∀ (esc : Char → List Char) (msg : ε → String),
        (tooLowError ε "" (getMinimumVersion w1)).Error esc msg =
          "kubernetes version \"\" is not compatible, need at least \"" ++ getMinimumVersion w1 ++
            "\" (this can be overridden with the env var \"KUBERNETES_MIN_VERSION\")") := by
  have hcheck := check_retrieved versioner w w1 v hcall
  refine ⟨?_, ?_⟩
  · rw [hcheck]
    by_cases h : semver.Compare (getMinimumVersion w1) (semver.Canonical v.String) = 1
    · right; simp [h]
    · left; simp [h]
  · intro hbad hgood
    have hparse : semver.parse v.String.data = none := by
      unfold semver.IsValid at hbad
      cases h : semver.parse v.String.data with
      | none => rfl
      | some p => rw [h] at hbad; cases hbad
    obtain ⟨pm, hpm⟩ := Option.isSome_iff_exists.1 hgood
    have hcanon := semver.canonical_invalid hparse
    have hcmp : semver.Compare (getMinimumVersion w1) (semver.Canonical v.String) = 1 := by
      rw [semver.compare_canonical_right]
      exact semver.compare_valid_invalid hpm hparse
    refine ⟨hcanon, ?_, ?_⟩
    · rw [hcheck, hcanon] at *
      simp [hcmp]
    · intro esc msg
      rw [tooLowError_message esc msg "" _ (by decide) (valid_plain hpm)]
      apply String.ext
      simp [tooLowText]

/-- C10, witness: the versioner reports `latest`, the minimum is the default:
the error names the current version as `""`. -/
theorem C10_witness_current_latest :
    semver.Canonical "latest" = "" ∧
    (CheckMinimumVersion (fixedVersioner "latest") (worldWith none)).1 =
      Outcome.returned (some (tooLowError String "" "v1.15.0")) ∧
    ∀ (esc : Char → List Char) (msg : String → String),
      (tooLowError String "" "v1.15.0").Error esc msg =
        "kubernetes version \"\" is not compatible, need at least \"v1.15.0\" (this can be overridden with the env var \"KUBERNETES_MIN_VERSION\")" :=
  (C10_invalid_current_is_reported_as_empty (fixedVersioner "latest") (worldWith none)
    (worldWith none) (infoOf "latest") rfl).2 (by decide) (by decide)
